import Mathlib

/-!
Verification of the search engines of the Advent-of-Code-2024 repository.

The repository's recurring core is a Dijkstra-style shortest-path loop,
appearing in `Day16.py` (`Day16_Part1`, `Day16_Part2`), `Day18.py`
(`find_min_dist_to_exit`) and `Day20.py` (`shortest_dists`), plus a
recursive sequence-decomposition search in `Day19.py` (`is_possible`,
`num_ways`).

The three Dijkstra loops differ only in the neighbour generator and in
which discovered states may enter the queue, so they are embedded as
instances of one parametric loop `stepSearch`:

  * Python's `dist` dict is an association list (`alookup` / `aset`);
  * Python's `queue` set is a list without duplicates, kept in insertion
    order; `min(queue, key=...)` picks the first element of minimal
    recorded distance, matching Python's `min` over the iteration order;
  * the `while queue:` loop is an iteration of `stepSearch`, which is the
    identity once the queue is empty; every instance supplies enough fuel
    for the queue to drain (proved below), so the iterated function
    computes exactly what the Python loop computes.
-/

namespace AoC

/-! ### Association lists, modelling Python dicts mapping states to Nat -/

def alookup {α : Type} [DecidableEq α] : List (α × Nat) → α → Option Nat
  | [], _ => none
  | (k, v) :: rest, x => if x = k then some v else alookup rest x

def aset {α : Type} [DecidableEq α] : List (α × Nat) → α → Nat → List (α × Nat)
  | [], k, v => [(k, v)]
  | (k1, v1) :: rest, k, v =>
      if k = k1 then (k, v) :: rest else (k1, v1) :: aset rest k v

theorem alookup_aset {α : Type} [DecidableEq α] (d : List (α × Nat)) (k : α) (v : Nat)
    (x : α) : alookup (aset d k v) x = if x = k then some v else alookup d x := by
  induction d with
  | nil =>
      simp [aset, alookup]
  | cons kv rest ih =>
      obtain ⟨k1, v1⟩ := kv
      by_cases hk : k = k1
      · subst hk
        by_cases hx : x = k <;> simp [aset, alookup, hx]
      · by_cases hx : x = k1
        · subst hx
          have hxk : ¬ x = k := fun h => hk h.symm
          simp [aset, alookup, hk, hxk]
        · simp [aset, alookup, hk, hx, ih]

theorem aset_keys_sub {α : Type} [DecidableEq α] (d : List (α × Nat)) (k : α) (v : Nat) :
    ∀ x w, (x, w) ∈ aset d k v → (∃ w1, (x, w1) ∈ d) ∨ x = k := by
  induction d with
  | nil =>
      intro x w hx
      simp [aset] at hx
      right; exact hx.1
  | cons kv rest ih =>
      obtain ⟨k1, v1⟩ := kv
      intro x w hx
      by_cases hk : k = k1
      · simp only [aset, if_pos hk] at hx
        rcases List.mem_cons.mp hx with h | h
        · right; exact (Prod.mk.injEq .. ▸ h).1
        · left; exact ⟨w, List.mem_cons_of_mem _ h⟩
      · simp only [aset, if_neg hk] at hx
        rcases List.mem_cons.mp hx with h | h
        · left
          obtain ⟨hx1, hx2⟩ := Prod.mk.injEq .. ▸ h
          exact ⟨v1, by rw [hx1]; exact List.mem_cons_self _ _⟩
        · rcases ih x w h with ⟨w1, h1⟩ | h1
          · left; exact ⟨w1, List.mem_cons_of_mem _ h1⟩
          · right; exact h1

theorem aset_keys_nodup {α : Type} [DecidableEq α] (d : List (α × Nat)) (k : α) (v : Nat)
    (h : (d.map Prod.fst).Nodup) : ((aset d k v).map Prod.fst).Nodup := by
  induction d with
  | nil => simp [aset]
  | cons kv rest ih =>
      obtain ⟨k1, v1⟩ := kv
      rw [List.map_cons, List.nodup_cons] at h
      by_cases hk : k = k1
      · simp only [aset, if_pos hk, List.map_cons, List.nodup_cons]
        exact ⟨by rw [hk]; exact h.1, h.2⟩
      · have htail := ih h.2
        simp only [aset, if_neg hk, List.map_cons, List.nodup_cons]
        refine ⟨?_, htail⟩
        intro hmem
        rcases List.mem_map.mp hmem with ⟨⟨x, w⟩, hxw, hfst⟩
        dsimp at hfst
        subst hfst
        rcases aset_keys_sub rest k v x w hxw with ⟨w1, h1⟩ | h1
        · exact h.1 (List.mem_map.mpr ⟨(x, w1), h1, rfl⟩)
        · exact hk h1.symm

theorem alookup_mem {α : Type} [DecidableEq α] (d : List (α × Nat)) (x : α) (n : Nat)
    (h : alookup d x = some n) : (x, n) ∈ d := by
  induction d with
  | nil => simp [alookup] at h
  | cons kv rest ih =>
      obtain ⟨k1, v1⟩ := kv
      by_cases hx : x = k1
      · subst hx
        simp [alookup] at h
        simp [h]
      · simp [alookup, hx] at h
        simp [ih h]

theorem mem_alookup {α : Type} [DecidableEq α] (d : List (α × Nat)) (x : α) (n : Nat)
    (hnd : (d.map Prod.fst).Nodup) (h : (x, n) ∈ d) : alookup d x = some n := by
  induction d with
  | nil => simp at h
  | cons kv rest ih =>
      obtain ⟨k1, v1⟩ := kv
      rw [List.map_cons, List.nodup_cons] at hnd
      rcases List.mem_cons.mp h with h1 | h1
      · obtain ⟨h2, h3⟩ := Prod.mk.injEq .. ▸ h1
        subst h2; subst h3
        simp [alookup]
      · have hx : ¬ x = k1 := by
          intro hx
          subst hx
          exact hnd.1 (List.mem_map.mpr ⟨(_, n), h1, rfl⟩)
        simp [alookup, hx]
        exact ih hnd.2 h1

theorem alookup_isSome_iff_mem {α : Type} [DecidableEq α] (d : List (α × Nat)) (x : α) :
    (∃ n, alookup d x = some n) ↔ ∃ n, (x, n) ∈ d := by
  constructor
  · rintro ⟨n, hn⟩
    exact ⟨n, alookup_mem d x n hn⟩
  · rintro ⟨n, hx⟩
    induction d with
    | nil => simp at hx
    | cons kv rest ih =>
        obtain ⟨k1, v1⟩ := kv
        by_cases h1 : x = k1
        · subst h1; exact ⟨v1, by simp [alookup]⟩
        · rcases List.mem_cons.mp hx with h2 | h2
          · exact absurd (Prod.mk.injEq .. ▸ h2).1 h1
          · rcases ih h2 with ⟨m, hm⟩
            exact ⟨m, by simp [alookup, h1, hm]⟩

/-! ### The Dijkstra-style loop shared by Day16, Day18 and Day20

`queue` is Python's `queue` set (insertion ordered, no duplicates),
`found` is the `found` set, `dist` the `dist` / `min_dist` dict.
`nbrs pos` lists the `(cost, state)` pairs the loop relaxes from `pos`
(the per-day wall / bounds / fallen-byte guards are part of it), and
`enq` is the extra guard a state must pass to be added to the queue
(`True` for Day16/Day18; "is not a wall" for Day20, which relaxes walls
without ever enqueueing them). -/

structure SearchState (α : Type) where
  queue : List α
  found : List α
  dist : List (α × Nat)

/-- `min(queue, key=lambda q: dist[q])`: first element of minimal key in
iteration order.  A missing dict entry would raise in Python; the loop
invariant below shows every queue member has an entry, so the `getD 0`
default is never exercised. -/
def selMin {α : Type} [DecidableEq α] (dist : List (α × Nat)) (q : α) (qs : List α) : α :=
  qs.foldl (fun b x => if (alookup dist x).getD 0 < (alookup dist b).getD 0 then x else b) q

/-- `if (new_pos, d) not in found: queue.add((new_pos, d))`, plus the
Day20-only wall guard `enq`. -/
def qstep {α : Type} [DecidableEq α] (found : List α) (enq : α → Bool)
    (qu : List α) (cv : Nat × α) : List α :=
  if enq cv.2 = true ∧ cv.2 ∉ found ∧ cv.2 ∉ qu then qu ++ [cv.2] else qu

/-- The relaxation of one neighbour: update the dict entry when new or
strictly smaller (`dist[pos] + s < dist[new_pos, d]`). -/
def dstep {α : Type} [DecidableEq α] (pos : α) (di : List (α × Nat)) (cv : Nat × α) :
    List (α × Nat) :=
  let dp := (alookup di pos).getD 0
  match alookup di cv.2 with
  | some dv => if dp + cv.1 < dv then aset di cv.2 (dp + cv.1) else di
  | none => aset di cv.2 (dp + cv.1)

def processNbr {α : Type} [DecidableEq α] (found : List α) (enq : α → Bool) (pos : α)
    (acc : List α × List (α × Nat)) (cv : Nat × α) : List α × List (α × Nat) :=
  (qstep found enq acc.1 cv, dstep pos acc.2 cv)

/-- One iteration of `while queue:`; the identity once the queue is empty. -/
def stepSearch {α : Type} [DecidableEq α] (nbrs : α → List (Nat × α)) (enq : α → Bool)
    (s : SearchState α) : SearchState α :=
  match s.queue with
  | [] => s
  | q :: qs =>
      let pos := selMin s.dist q qs
      let acc := (nbrs pos).foldl (processNbr s.found enq pos) ((q :: qs).erase pos, s.dist)
      ⟨acc.1, s.found ++ [pos], acc.2⟩

/-- `queue, found = {pos}, set()` and `dist = {pos: 0}`. -/
def initState {α : Type} (s0 : α) : SearchState α := ⟨[s0], [], [(s0, 0)]⟩

/-- Paths the loop can discover: a cost-`n` walk from the start whose every
non-final node was eligible for the queue (the start is processed even when
`enq` rejects it, since it is seeded into the queue directly). -/
inductive Reaches {α : Type} (nbrs : α → List (Nat × α)) (enq : α → Bool) (s0 : α) :
    α → Nat → Prop where
  | base : Reaches nbrs enq s0 s0 0
  | step : ∀ {u : α} {n c : Nat} {v : α}, Reaches nbrs enq s0 u n →
      (enq u = true ∨ u = s0) → (c, v) ∈ nbrs u → Reaches nbrs enq s0 v (n + c)

section Engine

variable {α : Type} [DecidableEq α]

theorem foldl_min_pick (key : α → Nat) (l : List α) :
    ∀ b : α,
      (l.foldl (fun b x => if key x < key b then x else b) b = b ∨
        l.foldl (fun b x => if key x < key b then x else b) b ∈ l) ∧
      key (l.foldl (fun b x => if key x < key b then x else b) b) ≤ key b ∧
      ∀ x ∈ l, key (l.foldl (fun b x => if key x < key b then x else b) b) ≤ key x := by
  induction l with
  | nil => intro b; simp
  | cons a l ih =>
      intro b
      by_cases h : key a < key b
      · have := ih a
        refine ⟨?_, ?_, ?_⟩
        · rcases this.1 with h1 | h1
          · right; simp [List.foldl_cons, if_pos h, h1]
          · right; simp only [List.foldl_cons, if_pos h]; exact List.mem_cons_of_mem _ h1
        · simp only [List.foldl_cons, if_pos h]
          exact le_trans this.2.1 (le_of_lt h)
        · intro x hx
          simp only [List.foldl_cons, if_pos h]
          rcases List.mem_cons.mp hx with h1 | h1
          · subst h1; exact this.2.1
          · exact this.2.2 x h1
      · have := ih b
        refine ⟨?_, ?_, ?_⟩
        · rcases this.1 with h1 | h1
          · left; simp [List.foldl_cons, if_neg h, h1]
          · right; simp only [List.foldl_cons, if_neg h]; exact List.mem_cons_of_mem _ h1
        · simp only [List.foldl_cons, if_neg h]
          exact this.2.1
        · intro x hx
          simp only [List.foldl_cons, if_neg h]
          rcases List.mem_cons.mp hx with h1 | h1
          · subst h1
            exact le_trans this.2.1 (le_of_not_lt h)
          · exact this.2.2 x h1

theorem selMin_mem (dist : List (α × Nat)) (q : α) (qs : List α) :
    selMin dist q qs ∈ q :: qs := by
  rcases (foldl_min_pick (fun x => (alookup dist x).getD 0) qs q).1 with h | h
  · rw [selMin, h]; exact List.mem_cons_self _ _
  · exact List.mem_cons_of_mem _ h

theorem selMin_min (dist : List (α × Nat)) (q : α) (qs : List α) :
    ∀ x ∈ q :: qs,
      (alookup dist (selMin dist q qs)).getD 0 ≤ (alookup dist x).getD 0 := by
  intro x hx
  have h := foldl_min_pick (fun x => (alookup dist x).getD 0) qs q
  rcases List.mem_cons.mp hx with h1 | h1
  · subst h1; exact h.2.1
  · exact h.2.2 x h1

/-- The queue-component and dict-component of the relaxation fold evolve
independently, so the fold splits. -/
theorem foldl_processNbr (found : List α) (enq : α → Bool) (pos : α)
    (L : List (Nat × α)) : ∀ (qu : List α) (di : List (α × Nat)),
    L.foldl (processNbr found enq pos) (qu, di) =
      (L.foldl (qstep found enq) qu, L.foldl (dstep pos) di) := by
  induction L with
  | nil => intro qu di; simp
  | cons cv L ih => intro qu di; simp only [List.foldl_cons]; exact ih _ _

theorem qstep_mem (found : List α) (enq : α → Bool) (L : List (Nat × α)) :
    ∀ (qu : List α) (x : α),
      (x ∈ L.foldl (qstep found enq) qu ↔
        x ∈ qu ∨ (enq x = true ∧ x ∉ found ∧ ∃ c, (c, x) ∈ L)) := by
  induction L with
  | nil => intro qu x; simp
  | cons cv L ih =>
      intro qu x
      simp only [List.foldl_cons]
      rw [ih]
      constructor
      · rintro (h | h)
        · by_cases hc : enq cv.2 = true ∧ cv.2 ∉ found ∧ cv.2 ∉ qu
          · rw [qstep, if_pos hc] at h
            rcases List.mem_append.mp h with h1 | h1
            · left; exact h1
            · right
              rcases List.mem_singleton.mp h1 with h2
              subst h2
              exact ⟨hc.1, hc.2.1, cv.1, by simp⟩
          · rw [qstep, if_neg hc] at h
            left; exact h
        · right; exact ⟨h.1, h.2.1, h.2.2.choose, List.mem_cons_of_mem _ h.2.2.choose_spec⟩
      · rintro (h | h)
        · left
          rw [qstep]
          by_cases hc : enq cv.2 = true ∧ cv.2 ∉ found ∧ cv.2 ∉ qu
          · rw [if_pos hc]; exact List.mem_append_left _ h
          · rw [if_neg hc]; exact h
        · obtain ⟨h1, h2, c, h3⟩ := h
          rcases List.mem_cons.mp h3 with h4 | h4
          · have hx : x = cv.2 := by
              have := (Prod.mk.injEq .. ▸ h4).2
              exact this
            subst hx
            by_cases hq : cv.2 ∈ qu
            · left
              rw [qstep]
              by_cases hc : enq cv.2 = true ∧ cv.2 ∉ found ∧ cv.2 ∉ qu
              · rw [if_pos hc]; exact List.mem_append_left _ hq
              · rw [if_neg hc]; exact hq
            · left
              rw [qstep, if_pos ⟨h1, h2, hq⟩]
              exact List.mem_append_right _ (List.mem_singleton.mpr rfl)
          · right; exact ⟨h1, h2, c, h4⟩

theorem qstep_nodup (found : List α) (enq : α → Bool) (L : List (Nat × α)) :
    ∀ qu : List α, qu.Nodup → (L.foldl (qstep found enq) qu).Nodup := by
  induction L with
  | nil => intro qu h; simpa
  | cons cv L ih =>
      intro qu h
      simp only [List.foldl_cons]
      refine ih _ ?_
      rw [qstep]
      by_cases hc : enq cv.2 = true ∧ cv.2 ∉ found ∧ cv.2 ∉ qu
      · rw [if_pos hc]
        simpa [List.nodup_append] using ⟨h, hc.2.2⟩
      · rw [if_neg hc]; exact h

theorem dstep_notpos (pos : α) (di : List (α × Nat)) (cv : Nat × α) (x : α)
    (h : x ≠ cv.2) : alookup (dstep pos di cv) x = alookup di x := by
  rw [dstep]
  cases hv : alookup di cv.2 with
  | none => simp [alookup_aset, h]
  | some dv =>
      by_cases hlt : (alookup di pos).getD 0 + cv.1 < dv
      · simp [hlt, alookup_aset, h]
      · simp [hlt]

theorem dstep_sound (pos : α) (di : List (α × Nat)) (cv : Nat × α) (x : α) (n : Nat)
    (h : alookup (dstep pos di cv) x = some n) :
    alookup di x = some n ∨ (x = cv.2 ∧ n = (alookup di pos).getD 0 + cv.1) := by
  by_cases hx : x = cv.2
  · subst hx
    rw [dstep] at h
    cases hv : alookup di cv.2 with
    | none => simp [hv, alookup_aset] at h; right; exact ⟨rfl, h.symm⟩
    | some dv =>
        by_cases hlt : (alookup di pos).getD 0 + cv.1 < dv
        · simp [hv, hlt, alookup_aset] at h
          right; exact ⟨rfl, h.symm⟩
        · simp [hv, hlt] at h
          subst h
          exact Or.inl rfl
  · left; rw [← dstep_notpos pos di cv x hx]; exact h

theorem dstep_mono (pos : α) (di : List (α × Nat)) (cv : Nat × α) (x : α) (n0 : Nat)
    (h : alookup di x = some n0) :
    ∃ n, n ≤ n0 ∧ alookup (dstep pos di cv) x = some n := by
  by_cases hx : x = cv.2
  · subst hx
    rw [dstep]
    by_cases hlt : (alookup di pos).getD 0 + cv.1 < n0
    · exact ⟨(alookup di pos).getD 0 + cv.1, le_of_lt hlt, by simp [h, hlt, alookup_aset]⟩
    · exact ⟨n0, le_refl _, by simp [h, hlt]⟩
  · exact ⟨n0, le_refl _, by rw [dstep_notpos pos di cv x hx]; exact h⟩

theorem dstep_relax (pos : α) (di : List (α × Nat)) (cv : Nat × α) :
    ∃ n, alookup (dstep pos di cv) cv.2 = some n ∧
      n ≤ (alookup di pos).getD 0 + cv.1 := by
  rw [dstep]
  cases hv : alookup di cv.2 with
  | none => exact ⟨_, by simp [alookup_aset], le_refl _⟩
  | some dv =>
      by_cases hlt : (alookup di pos).getD 0 + cv.1 < dv
      · exact ⟨_, by simp [hlt, alookup_aset], le_refl _⟩
      · exact ⟨dv, by simp [hv, hlt], le_of_not_lt hlt⟩

theorem dstep_stable (pos : α) (di : List (α × Nat)) (cv : Nat × α) (x : α) (n0 : Nat)
    (h : alookup di x = some n0)
    (hbound : x = cv.2 → n0 ≤ (alookup di pos).getD 0 + cv.1) :
    alookup (dstep pos di cv) x = some n0 := by
  by_cases hx : x = cv.2
  · subst hx
    have hb := hbound rfl
    rw [dstep]
    have hlt : ¬ (alookup di pos).getD 0 + cv.1 < n0 := not_lt_of_le hb
    simp [h, hlt]
  · rw [dstep_notpos pos di cv x hx]; exact h

theorem dstep_keys (pos : α) (di : List (α × Nat)) (cv : Nat × α)
    (h : (di.map Prod.fst).Nodup) : ((dstep pos di cv).map Prod.fst).Nodup := by
  rw [dstep]
  cases hv : alookup di cv.2 with
  | none => exact aset_keys_nodup di cv.2 _ h
  | some dv =>
      by_cases hlt : (alookup di pos).getD 0 + cv.1 < dv
      · simp only [hlt, if_true]
        exact aset_keys_nodup di cv.2 _ h
      · simpa [hlt] using h

/-! Facts about the whole relaxation fold over the neighbour list `L`,
under the hypothesis that the popped state is not its own neighbour (true
of every instance: a move always changes the position), so its recorded
distance is fixed while its neighbours are relaxed. -/

theorem dfold_pos (pos : α) (L : List (Nat × α)) (hL : ∀ c, (c, pos) ∉ L) :
    ∀ di, alookup (L.foldl (dstep pos) di) pos = alookup di pos := by
  induction L with
  | nil => intro di; rfl
  | cons cv L ih =>
      intro di
      have hcv : pos ≠ cv.2 := fun h1 => hL cv.1 (by simp [h1])
      have hL2 : ∀ c, (c, pos) ∉ L := fun c hc => hL c (List.mem_cons_of_mem _ hc)
      simp only [List.foldl_cons]
      rw [ih hL2, dstep_notpos pos di cv pos hcv]

theorem dfold_sound (pos : α) (L : List (Nat × α)) (hL : ∀ c, (c, pos) ∉ L) :
    ∀ di x n, alookup (L.foldl (dstep pos) di) x = some n →
      alookup di x = some n ∨ ∃ c, (c, x) ∈ L ∧ n = (alookup di pos).getD 0 + c := by
  induction L with
  | nil => intro di x n h; left; exact h
  | cons cv L ih =>
      intro di x n h
      have hcv : pos ≠ cv.2 := fun h1 => hL cv.1 (by simp [h1])
      have hL2 : ∀ c, (c, pos) ∉ L := fun c hc => hL c (List.mem_cons_of_mem _ hc)
      simp only [List.foldl_cons] at h
      rcases ih hL2 _ x n h with h1 | ⟨c, hc, hn⟩
      · rcases dstep_sound pos di cv x n h1 with h2 | ⟨h2, h3⟩
        · left; exact h2
        · right; exact ⟨cv.1, by rw [h2]; simp, h3⟩
      · right
        refine ⟨c, List.mem_cons_of_mem _ hc, ?_⟩
        rw [hn, dstep_notpos pos di cv pos hcv]


theorem dfold_mono (pos : α) (L : List (Nat × α)) :
    ∀ di x n0, alookup di x = some n0 →
      ∃ n, n ≤ n0 ∧ alookup (L.foldl (dstep pos) di) x = some n := by
  induction L with
  | nil => intro di x n0 h; exact ⟨n0, le_refl _, h⟩
  | cons cv L ih =>
      intro di x n0 h
      obtain ⟨n1, hn1, h1⟩ := dstep_mono pos di cv x n0 h
      obtain ⟨n2, hn2, h2⟩ := ih _ x n1 h1
      exact ⟨n2, le_trans hn2 hn1, by simpa using h2⟩

theorem dfold_relax (pos : α) (L : List (Nat × α)) (hL : ∀ c, (c, pos) ∉ L) :
    ∀ di cv, cv ∈ L →
      ∃ n, alookup (L.foldl (dstep pos) di) cv.2 = some n ∧
        n ≤ (alookup di pos).getD 0 + cv.1 := by
  induction L with
  | nil => intro di cv h; simp at h
  | cons cv0 L ih =>
      intro di cv h
      have hcv0 : pos ≠ cv0.2 := fun h1 => hL cv0.1 (by simp [h1])
      have hL2 : ∀ c, (c, pos) ∉ L := fun c hc => hL c (List.mem_cons_of_mem _ hc)
      have hdp : (alookup (dstep pos di cv0) pos).getD 0 = (alookup di pos).getD 0 := by
        rw [dstep_notpos pos di cv0 pos hcv0]
      rcases List.mem_cons.mp h with h1 | h1
      · subst h1
        obtain ⟨n1, h1, hn1⟩ := dstep_relax pos di cv
        obtain ⟨n2, hn2, h2⟩ := dfold_mono pos L _ cv.2 n1 h1
        exact ⟨n2, by simpa using h2, le_trans hn2 hn1⟩
      · obtain ⟨n, h2, hn⟩ := ih hL2 (dstep pos di cv0) cv h1
        exact ⟨n, by simpa using h2, by rw [← hdp]; exact hn⟩

theorem dfold_stable (pos : α) (L : List (Nat × α)) (hL : ∀ c, (c, pos) ∉ L) :
    ∀ di x n0, alookup di x = some n0 →
      (∀ c, (c, x) ∈ L → n0 ≤ (alookup di pos).getD 0 + c) →
      alookup (L.foldl (dstep pos) di) x = some n0 := by
  induction L with
  | nil => intro di x n0 h _; exact h
  | cons cv L ih =>
      intro di x n0 h hbound
      have hcv0 : pos ≠ cv.2 := fun h1 => hL cv.1 (by simp [h1])
      have hL2 : ∀ c, (c, pos) ∉ L := fun c hc => hL c (List.mem_cons_of_mem _ hc)
      have h1 : alookup (dstep pos di cv) x = some n0 := by
        refine dstep_stable pos di cv x n0 h ?_
        intro hx
        exact hbound cv.1 (by rw [hx]; simp)
      have hdp : (alookup (dstep pos di cv) pos).getD 0 = (alookup di pos).getD 0 := by
        rw [dstep_notpos pos di cv pos hcv0]
      simp only [List.foldl_cons]
      refine ih hL2 _ x n0 h1 ?_
      intro c hc
      rw [hdp]
      exact hbound c (List.mem_cons_of_mem _ hc)

theorem dfold_keys (pos : α) (L : List (Nat × α)) :
    ∀ di, (di.map Prod.fst).Nodup → ((L.foldl (dstep pos) di).map Prod.fst).Nodup := by
  induction L with
  | nil => intro di h; exact h
  | cons cv L ih =>
      intro di h
      simp only [List.foldl_cons]
      exact ih _ (dstep_keys pos di cv h)

/-! ### The Dijkstra invariant -/

structure Inv (nbrs : α → List (Nat × α)) (enq : α → Bool) (s0 : α) (U : List α)
    (s : SearchState α) : Prop where
  qNodup : s.queue.Nodup
  fNodup : s.found.Nodup
  qf : ∀ v ∈ s.queue, v ∉ s.found
  keys : (s.dist.map Prod.fst).Nodup
  qU : ∀ v ∈ s.queue, v ∈ U
  fU : ∀ v ∈ s.found, v ∈ U
  qEnq : ∀ v ∈ s.queue, enq v = true ∨ v = s0
  fEnq : ∀ v ∈ s.found, enq v = true ∨ v = s0
  qDom : ∀ v ∈ s.queue, ∃ n, alookup s.dist v = some n
  sound : ∀ v n, alookup s.dist v = some n → Reaches nbrs enq s0 v n
  fOpt : ∀ v ∈ s.found, ∃ n, alookup s.dist v = some n ∧
      ∀ m, Reaches nbrs enq s0 v m → n ≤ m
  relaxed : ∀ u ∈ s.found, ∀ cv ∈ nbrs u, ∃ n m, alookup s.dist cv.2 = some n ∧
      alookup s.dist u = some m ∧ n ≤ m + cv.1
  achieved : ∀ v n, alookup s.dist v = some n → v ∉ s.found →
      (v = s0 ∧ n = 0) ∨ ∃ u ∈ s.found, ∃ c, (c, v) ∈ nbrs u ∧ ∃ m,
        alookup s.dist u = some m ∧ n = m + c
  qChar : ∀ v n, alookup s.dist v = some n → v ∉ s.found →
      (enq v = true ∨ v = s0) → v ∈ s.queue
  start0 : s0 ∈ s.found ∨ (s.found = [] ∧ s.queue = [s0] ∧ s.dist = [(s0, 0)])

theorem inv_init (nbrs : α → List (Nat × α)) (enq : α → Bool) (s0 : α) (U : List α)
    (hU : s0 ∈ U) : Inv nbrs enq s0 U (initState s0) := by
  refine ⟨?_, ?_, ?_, ?_, ?_, ?_, ?_, ?_, ?_, ?_, ?_, ?_, ?_, ?_, ?_⟩
  · simp [initState]
  · simp [initState]
  · simp [initState]
  · simp [initState]
  · intro v hv
    rcases List.mem_singleton.mp hv with h
    subst h; exact hU
  · simp [initState]
  · intro v hv
    rcases List.mem_singleton.mp hv with h
    subst h; right; rfl
  · simp [initState]
  · intro v hv
    rcases List.mem_singleton.mp hv with h
    subst h
    exact ⟨0, by simp [initState, alookup]⟩
  · intro v n h
    simp only [initState] at h
    by_cases hv : v = s0
    · subst hv
      simp [alookup] at h
      subst h
      exact Reaches.base
    · simp [alookup, hv] at h
  · simp [initState]
  · simp [initState]
  · intro v n h _
    simp only [initState] at h
    by_cases hv : v = s0
    · subst hv
      simp [alookup] at h
      left; exact ⟨rfl, h.symm⟩
    · simp [alookup, hv] at h
  · intro v n h _ _
    simp only [initState] at h
    by_cases hv : v = s0
    · subst hv; simp [initState]
    · simp [alookup, hv] at h
  · right; exact ⟨rfl, rfl, rfl⟩

theorem popmin_least (nbrs : α → List (Nat × α)) (enq : α → Bool) (s0 : α) (U : List α)
    (s : SearchState α) (hInv : Inv nbrs enq s0 U s) (q : α) (qs : List α)
    (hq : s.queue = q :: qs) :
    ∀ v m, Reaches nbrs enq s0 v m → v ∉ s.found → (enq v = true ∨ v = s0) →
      (alookup s.dist (selMin s.dist q qs)).getD 0 ≤ m := by
  intro v m hm
  induction hm with
  | base =>
      intro hnf _
      rcases hInv.start0 with h | ⟨hf, hqu, hd⟩
      · exact absurd h hnf
      · rw [hq] at hqu
        have hq2 : q = s0 := (List.cons.injEq .. ▸ hqu).1
        have hq3 : qs = [] := (List.cons.injEq .. ▸ hqu).2
        subst hq2; subst hq3
        rw [hd]
        simp [selMin, alookup]
  | step h1 h2 h3 ih =>
      rename_i u n c w
      intro hnf henqv
      by_cases huf : u ∈ s.found
      · obtain ⟨nu, hnu, hleast⟩ := hInv.fOpt u huf
        obtain ⟨nv, mu, hnv, hmu, hle⟩ := hInv.relaxed u huf (c, w) h3
        have hmu2 : mu = nu := Option.some.inj (hmu.symm.trans hnu)
        have hqw : w ∈ q :: qs := by
          rw [← hq]
          exact hInv.qChar w nv hnv hnf henqv
        have hmin := selMin_min s.dist q qs w hqw
        rw [hnv] at hmin
        simp only [Option.getD_some] at hmin
        calc (alookup s.dist (selMin s.dist q qs)).getD 0 ≤ nv := hmin
          _ ≤ mu + c := hle
          _ = nu + c := by rw [hmu2]
          _ ≤ n + c := Nat.add_le_add_right (hleast n h1) c
      · have := ih (fun hf => huf hf) h2
        exact le_trans this (Nat.le_add_right n c)

/-- One iteration of the loop preserves the invariant, finalizes exactly the
popped state, and never touches the recorded distance of an already
finalized state (claim C2's monotonicity). -/
theorem step_preserve (nbrs : α → List (Nat × α)) (enq : α → Bool) (s0 : α) (U : List α)
    (hclosed : ∀ u ∈ U, ∀ cv ∈ nbrs u, enq cv.2 = true → cv.2 ∈ U)
    (hself : ∀ u ∈ U, ∀ (c : Nat), (c, u) ∉ nbrs u)
    (q : α) (qs : List α) (F : List α) (D : List (α × Nat))
    (hInv : Inv nbrs enq s0 U ⟨q :: qs, F, D⟩) :
    Inv nbrs enq s0 U (stepSearch nbrs enq ⟨q :: qs, F, D⟩) ∧
    (stepSearch nbrs enq ⟨q :: qs, F, D⟩).found = F ++ [selMin D q qs] ∧
    (∀ v ∈ F, alookup (stepSearch nbrs enq ⟨q :: qs, F, D⟩).dist v = alookup D v) ∧
    selMin D q qs ∉ F := by
  have hpos_mem_q : selMin D q qs ∈ q :: qs := selMin_mem D q qs
  have hpos_notf : selMin D q qs ∉ F := hInv.qf _ hpos_mem_q
  obtain ⟨npos, hnpos⟩ := hInv.qDom _ hpos_mem_q
  have hdp : (alookup D (selMin D q qs)).getD 0 = npos := by rw [hnpos]; rfl
  have hpos_enq : enq (selMin D q qs) = true ∨ selMin D q qs = s0 :=
    hInv.qEnq _ hpos_mem_q
  have hpos_reach : Reaches nbrs enq s0 (selMin D q qs) npos :=
    hInv.sound _ npos hnpos
  have hpos_least : ∀ m, Reaches nbrs enq s0 (selMin D q qs) m → npos ≤ m := by
    intro m hm
    have h1 := popmin_least nbrs enq s0 U ⟨q :: qs, F, D⟩ hInv q qs rfl
      (selMin D q qs) m hm hpos_notf hpos_enq
    rw [hdp] at h1
    exact h1
  have hpos_U : selMin D q qs ∈ U := hInv.qU _ hpos_mem_q
  have hLpos : ∀ c, (c, selMin D q qs) ∉ nbrs (selMin D q qs) :=
    fun c hc => hself _ hpos_U c hc
  have hstep : stepSearch nbrs enq ⟨q :: qs, F, D⟩ =
      ⟨(nbrs (selMin D q qs)).foldl (qstep F enq) ((q :: qs).erase (selMin D q qs)),
       F ++ [selMin D q qs],
       (nbrs (selMin D q qs)).foldl (dstep (selMin D q qs)) D⟩ := by
    simp only [stepSearch]
    rw [foldl_processNbr]
  set pos := selMin D q qs with hposdef
  set rest := (q :: qs).erase pos with hrestdef
  set qu := (nbrs pos).foldl (qstep F enq) rest with hqudef
  set di := (nbrs pos).foldl (dstep pos) D with hdidef
  have hdf_pos : alookup di pos = alookup D pos := dfold_pos pos _ hLpos D
  have hdf_sound : ∀ x n, alookup di x = some n →
      alookup D x = some n ∨ ∃ c, (c, x) ∈ nbrs pos ∧ n = npos + c := by
    intro x n h
    rcases dfold_sound pos _ hLpos D x n h with h1 | ⟨c, hc, hn⟩
    · left; exact h1
    · right; exact ⟨c, hc, by rw [hn, hdp]⟩
  have hfound_stable : ∀ v ∈ F, alookup di v = alookup D v := by
    intro v hv
    obtain ⟨nv, hnv, hleast⟩ := hInv.fOpt v hv
    have hst := dfold_stable pos _ hLpos D v nv hnv ?_
    · rw [hst, hnv]
    · intro c hc
      rw [hdp]
      exact hleast _ (Reaches.step hpos_reach hpos_enq hc)
  have hq_mem : ∀ x, x ∈ qu ↔ x ∈ rest ∨
      (enq x = true ∧ x ∉ F ∧ ∃ c, (c, x) ∈ nbrs pos) :=
    fun x => qstep_mem F enq (nbrs pos) rest x
  have hrest_ne : ∀ v ∈ rest, v ≠ pos := by
    intro v hv
    exact ((List.Nodup.mem_erase_iff hInv.qNodup).mp hv).1
  have hrest_sub : ∀ v ∈ rest, v ∈ q :: qs := fun v hv => List.mem_of_mem_erase hv
  have hnewF : ∀ v, v ∈ F ++ [pos] ↔ v ∈ F ∨ v = pos := by
    intro v
    rw [List.mem_append, List.mem_singleton]
  rw [hstep]
  refine ⟨⟨?_, ?_, ?_, ?_, ?_, ?_, ?_, ?_, ?_, ?_, ?_, ?_, ?_, ?_, ?_⟩, rfl, ?_, hpos_notf⟩
  · exact qstep_nodup F enq (nbrs pos) rest (hInv.qNodup.erase pos)
  · simp only [List.nodup_append, List.nodup_cons, List.not_mem_nil, not_false_iff,
      List.nodup_nil, and_true, true_and]
    constructor
    · exact hInv.fNodup
    · intro v hv h1
      rcases List.mem_singleton.mp h1 with h2
      subst h2
      exact hpos_notf hv
  · intro v hv hmem
    rcases (hnewF v).mp hmem with h1 | h1
    · rcases (hq_mem v).mp hv with h2 | h2
      · exact hInv.qf v (hrest_sub v h2) h1
      · exact h2.2.1 h1
    · rcases (hq_mem v).mp hv with h2 | h2
      · exact hrest_ne v h2 h1
      · obtain ⟨_, _, c, hc⟩ := h2
        rw [h1] at hc
        exact hself pos hpos_U c hc
  · exact dfold_keys pos _ D hInv.keys
  · intro v hv
    rcases (hq_mem v).mp hv with h1 | h1
    · exact hInv.qU v (hrest_sub v h1)
    · obtain ⟨henq, _, c, hc⟩ := h1
      exact hclosed pos hpos_U (c, v) hc henq
  · intro v hv
    rcases (hnewF v).mp hv with h1 | h1
    · exact hInv.fU v h1
    · subst h1; exact hpos_U
  · intro v hv
    rcases (hq_mem v).mp hv with h1 | h1
    · exact hInv.qEnq v (hrest_sub v h1)
    · left; exact h1.1
  · intro v hv
    rcases (hnewF v).mp hv with h1 | h1
    · exact hInv.fEnq v h1
    · subst h1; exact hpos_enq
  · intro v hv
    rcases (hq_mem v).mp hv with h1 | h1
    · obtain ⟨n, hn⟩ := hInv.qDom v (hrest_sub v h1)
      obtain ⟨n1, _, hn1⟩ := dfold_mono pos (nbrs pos) D v n hn
      exact ⟨n1, hn1⟩
    · obtain ⟨henq, hnf, c, hc⟩ := h1
      obtain ⟨n, hn, _⟩ := dfold_relax pos _ hLpos D (c, v) hc
      exact ⟨n, hn⟩
  · intro v n h
    rcases hdf_sound v n h with h1 | ⟨c, hc, hn⟩
    · exact hInv.sound v n h1
    · subst hn
      exact Reaches.step hpos_reach hpos_enq hc
  · intro v hv
    rcases (hnewF v).mp hv with h1 | h1
    · obtain ⟨n, hn, hleast⟩ := hInv.fOpt v h1
      exact ⟨n, by rw [hfound_stable v h1]; exact hn, hleast⟩
    · subst h1
      exact ⟨npos, by rw [hdf_pos]; exact hnpos, hpos_least⟩
  · intro u hu cv hcv
    rcases (hnewF u).mp hu with h1 | h1
    · obtain ⟨n, m, hn, hm, hle⟩ := hInv.relaxed u h1 cv hcv
      obtain ⟨n1, hn1le, hn1⟩ := dfold_mono pos (nbrs pos) D cv.2 n hn
      exact ⟨n1, m, hn1, by rw [hfound_stable u h1]; exact hm, le_trans hn1le hle⟩
    · subst h1
      obtain ⟨n, hn, hle⟩ := dfold_relax pos _ hLpos D cv hcv
      refine ⟨n, npos, hn, by rw [hdf_pos]; exact hnpos, ?_⟩
      rw [hdp] at hle
      exact hle
  · intro v n h hvnf
    have hvF : v ∉ F := fun h1 => hvnf ((hnewF v).mpr (Or.inl h1))
    rcases hdf_sound v n h with h1 | ⟨c, hc, hn⟩
    · rcases hInv.achieved v n h1 hvF with h2 | ⟨u, huF, c, hc, m, hm, hn⟩
      · left; exact h2
      · right
        refine ⟨u, (hnewF u).mpr (Or.inl huF), c, hc, m, ?_, hn⟩
        rw [hfound_stable u huF]
        exact hm
    · right
      refine ⟨pos, (hnewF pos).mpr (Or.inr rfl), c, hc, npos, ?_, hn⟩
      rw [hdf_pos]
      exact hnpos
  · intro v n h hvnf henqok
    have hvF : v ∉ F := fun h1 => hvnf ((hnewF v).mpr (Or.inl h1))
    have hvne : v ≠ pos := fun h1 => hvnf ((hnewF v).mpr (Or.inr h1))
    rcases hdf_sound v n h with h1 | ⟨c, hc, hn⟩
    · have hvq : v ∈ q :: qs := hInv.qChar v n h1 hvF henqok
      exact (hq_mem v).mpr (Or.inl ((List.Nodup.mem_erase_iff hInv.qNodup).mpr ⟨hvne, hvq⟩))
    · have henqv : enq v = true := by
        rcases henqok with h2 | h2
        · exact h2
        · rcases hInv.start0 with h3 | ⟨hF3, hQ3, hD3⟩
          · rw [h2] at hvF
            exact absurd h3 hvF
          · exfalso
            apply hvne
            rw [h2]
            have h5 : pos ∈ q :: qs := hpos_mem_q
            have hQ4 : q :: qs = [s0] := hQ3
            rw [hQ4] at h5
            rcases List.mem_singleton.mp h5 with h4
            exact h4.symm
      exact (hq_mem v).mpr (Or.inr ⟨henqv, hvF, c, hc⟩)
  · left
    rcases hInv.start0 with h1 | ⟨hF1, hQ1, hD1⟩
    · exact (hnewF s0).mpr (Or.inl h1)
    · refine (hnewF s0).mpr (Or.inr ?_)
      have h5 : pos ∈ q :: qs := hpos_mem_q
      have hQ4 : q :: qs = [s0] := hQ1
      rw [hQ4] at h5
      rcases List.mem_singleton.mp h5 with h4
      exact h4.symm
  · intro v hv
    exact hfound_stable v hv

theorem step_empty (nbrs : α → List (Nat × α)) (enq : α → Bool) (s : SearchState α)
    (h : s.queue = []) : stepSearch nbrs enq s = s := by
  obtain ⟨Q, F, D⟩ := s
  dsimp at h
  subst h
  rfl

theorem step_preserve2 (nbrs : α → List (Nat × α)) (enq : α → Bool) (s0 : α) (U : List α)
    (hclosed : ∀ u ∈ U, ∀ cv ∈ nbrs u, enq cv.2 = true → cv.2 ∈ U)
    (hself : ∀ u ∈ U, ∀ (c : Nat), (c, u) ∉ nbrs u)
    (s : SearchState α) (hInv : Inv nbrs enq s0 U s) (q : α) (qs : List α)
    (hq : s.queue = q :: qs) :
    Inv nbrs enq s0 U (stepSearch nbrs enq s) ∧
    (stepSearch nbrs enq s).found = s.found ++ [selMin s.dist q qs] ∧
    (∀ v ∈ s.found, alookup (stepSearch nbrs enq s).dist v = alookup s.dist v) ∧
    selMin s.dist q qs ∉ s.found := by
  obtain ⟨Q, F, D⟩ := s
  dsimp at hq
  subst hq
  exact step_preserve nbrs enq s0 U hclosed hself q qs F D hInv

theorem inv_step (nbrs : α → List (Nat × α)) (enq : α → Bool) (s0 : α) (U : List α)
    (hclosed : ∀ u ∈ U, ∀ cv ∈ nbrs u, enq cv.2 = true → cv.2 ∈ U)
    (hself : ∀ u ∈ U, ∀ (c : Nat), (c, u) ∉ nbrs u)
    (s : SearchState α) (hInv : Inv nbrs enq s0 U s) :
    Inv nbrs enq s0 U (stepSearch nbrs enq s) := by
  cases hq : s.queue with
  | nil => rw [step_empty nbrs enq s hq]; exact hInv
  | cons q qs => exact (step_preserve2 nbrs enq s0 U hclosed hself s hInv q qs hq).1

theorem inv_iter (nbrs : α → List (Nat × α)) (enq : α → Bool) (s0 : α) (U : List α)
    (hclosed : ∀ u ∈ U, ∀ cv ∈ nbrs u, enq cv.2 = true → cv.2 ∈ U)
    (hself : ∀ u ∈ U, ∀ (c : Nat), (c, u) ∉ nbrs u) (hU : s0 ∈ U) (k : Nat) :
    Inv nbrs enq s0 U ((stepSearch nbrs enq)^[k] (initState s0)) := by
  induction k with
  | zero => exact inv_init nbrs enq s0 U hU
  | succ k ih =>
      rw [Function.iterate_succ_apply']
      exact inv_step nbrs enq s0 U hclosed hself _ ih

theorem step_found_stable (nbrs : α → List (Nat × α)) (enq : α → Bool) (s0 : α) (U : List α)
    (hclosed : ∀ u ∈ U, ∀ cv ∈ nbrs u, enq cv.2 = true → cv.2 ∈ U)
    (hself : ∀ u ∈ U, ∀ (c : Nat), (c, u) ∉ nbrs u)
    (s : SearchState α) (hInv : Inv nbrs enq s0 U s) (v : α) (hv : v ∈ s.found) :
    v ∈ (stepSearch nbrs enq s).found ∧
    alookup (stepSearch nbrs enq s).dist v = alookup s.dist v := by
  cases hq : s.queue with
  | nil => rw [step_empty nbrs enq s hq]; exact ⟨hv, rfl⟩
  | cons q qs =>
      obtain ⟨_, hfound, hstable, _⟩ :=
        step_preserve2 nbrs enq s0 U hclosed hself s hInv q qs hq
      exact ⟨by rw [hfound]; exact List.mem_append_left _ hv, hstable v hv⟩

theorem iter_found_stable (nbrs : α → List (Nat × α)) (enq : α → Bool) (s0 : α) (U : List α)
    (hclosed : ∀ u ∈ U, ∀ cv ∈ nbrs u, enq cv.2 = true → cv.2 ∈ U)
    (hself : ∀ u ∈ U, ∀ (c : Nat), (c, u) ∉ nbrs u) (hU : s0 ∈ U) (k j : Nat) (v : α)
    (hv : v ∈ ((stepSearch nbrs enq)^[k] (initState s0)).found) :
    v ∈ ((stepSearch nbrs enq)^[k + j] (initState s0)).found ∧
    alookup ((stepSearch nbrs enq)^[k + j] (initState s0)).dist v =
      alookup ((stepSearch nbrs enq)^[k] (initState s0)).dist v := by
  induction j with
  | zero => exact ⟨hv, rfl⟩
  | succ j ih =>
      have hInv := inv_iter nbrs enq s0 U hclosed hself hU (k + j)
      have hstep := step_found_stable nbrs enq s0 U hclosed hself _ hInv v ih.1
      rw [show k + (j + 1) = (k + j) + 1 by omega, Function.iterate_succ_apply']
      exact ⟨hstep.1, hstep.2.trans ih.2⟩

theorem iter_queue_len (nbrs : α → List (Nat × α)) (enq : α → Bool) (s0 : α) (U : List α)
    (hclosed : ∀ u ∈ U, ∀ cv ∈ nbrs u, enq cv.2 = true → cv.2 ∈ U)
    (hself : ∀ u ∈ U, ∀ (c : Nat), (c, u) ∉ nbrs u) (hU : s0 ∈ U) (k : Nat)
    (hne : ((stepSearch nbrs enq)^[k] (initState s0)).queue ≠ []) :
    k ≤ ((stepSearch nbrs enq)^[k] (initState s0)).found.length := by
  induction k with
  | zero => exact Nat.zero_le _
  | succ k ih =>
      by_cases hk : ((stepSearch nbrs enq)^[k] (initState s0)).queue = []
      · exfalso
        apply hne
        rw [Function.iterate_succ_apply', step_empty nbrs enq _ hk]
        exact hk
      · have hlen := ih hk
        have hInv := inv_iter nbrs enq s0 U hclosed hself hU k
        rcases hq : ((stepSearch nbrs enq)^[k] (initState s0)).queue with _ | ⟨q, qs⟩
        · exact absurd hq hk
        · obtain ⟨_, hfound, _, _⟩ :=
            step_preserve2 nbrs enq s0 U hclosed hself _ hInv q qs hq
          rw [Function.iterate_succ_apply', hfound]
          simp only [List.length_append, List.length_singleton]
          omega

theorem iter_empty_stable (nbrs : α → List (Nat × α)) (enq : α → Bool) (s0 : α)
    (k : Nat) (h : ((stepSearch nbrs enq)^[k] (initState s0)).queue = []) (j : Nat) :
    (stepSearch nbrs enq)^[k + j] (initState s0) =
      (stepSearch nbrs enq)^[k] (initState s0) := by
  induction j with
  | zero => rfl
  | succ j ih =>
      rw [show k + (j + 1) = (k + j) + 1 by omega, Function.iterate_succ_apply', ih,
        step_empty nbrs enq _ h]

/-- After `U.length` iterations the queue has drained: the Python loop
terminates, and any generous fuel yields the loop's final state. -/
theorem queue_drained (nbrs : α → List (Nat × α)) (enq : α → Bool) (s0 : α) (U : List α)
    (hclosed : ∀ u ∈ U, ∀ cv ∈ nbrs u, enq cv.2 = true → cv.2 ∈ U)
    (hself : ∀ u ∈ U, ∀ (c : Nat), (c, u) ∉ nbrs u) (hU : s0 ∈ U) (fuel : Nat)
    (hfuel : U.length ≤ fuel) :
    ((stepSearch nbrs enq)^[fuel] (initState s0)).queue = [] ∧
    (stepSearch nbrs enq)^[fuel] (initState s0) =
      (stepSearch nbrs enq)^[U.length] (initState s0) := by
  have hempty : ((stepSearch nbrs enq)^[U.length] (initState s0)).queue = [] := by
    by_contra hne
    have hlen := iter_queue_len nbrs enq s0 U hclosed hself hU U.length hne
    have hInv := inv_iter nbrs enq s0 U hclosed hself hU U.length
    rcases hq : ((stepSearch nbrs enq)^[U.length] (initState s0)).queue with _ | ⟨v, vs⟩
    · exact hne hq
    · have hvq : v ∈ ((stepSearch nbrs enq)^[U.length] (initState s0)).queue := by
        rw [hq]; exact List.mem_cons_self _ _
      have hvU := hInv.qU v hvq
      have hvF := hInv.qf v hvq
      have hnodup : (((stepSearch nbrs enq)^[U.length] (initState s0)).found ++ [v]).Nodup := by
        simp only [List.nodup_append, List.nodup_cons, List.not_mem_nil, not_false_iff,
          List.nodup_nil, and_true, true_and]
        refine ⟨hInv.fNodup, ?_⟩
        intro w hw h1
        rcases List.mem_singleton.mp h1 with h2
        subst h2
        exact hvF hw
      have hsub : (((stepSearch nbrs enq)^[U.length] (initState s0)).found ++ [v]) ⊆ U := by
        intro w hw
        rcases List.mem_append.mp hw with h1 | h1
        · exact hInv.fU w h1
        · rcases List.mem_singleton.mp h1 with h2
          subst h2
          exact hvU
      have hle := (List.subperm_of_subset hnodup hsub).length_le
      simp only [List.length_append, List.length_singleton] at hle
      omega
  have heq := iter_empty_stable nbrs enq s0 U.length hempty (fuel - U.length)
  rw [show U.length + (fuel - U.length) = fuel by omega] at heq
  rw [heq]
  exact ⟨hempty, rfl⟩

theorem final_complete (nbrs : α → List (Nat × α)) (enq : α → Bool) (s0 : α) (U : List α)
    (s : SearchState α) (hInv : Inv nbrs enq s0 U s) (hq : s.queue = []) :
    ∀ v m, Reaches nbrs enq s0 v m → (enq v = true ∨ v = s0) → v ∈ s.found := by
  intro v m hm
  induction hm with
  | base =>
      intro _
      rcases hInv.start0 with h | ⟨hF, hQ, hD⟩
      · exact h
      · rw [hq] at hQ
        exact absurd hQ.symm (List.cons_ne_nil s0 [])
  | step h1 h2 h3 ih =>
      rename_i u n c w
      intro henqw
      have huF : u ∈ s.found := ih h2
      obtain ⟨nv, mu, hnv, hmu, hle⟩ := hInv.relaxed u huF _ h3
      by_cases hwF : w ∈ s.found
      · exact hwF
      · have hmem := hInv.qChar w nv hnv hwF henqw
        rw [hq] at hmem
        exact absurd hmem (List.not_mem_nil w)

theorem final_least (nbrs : α → List (Nat × α)) (enq : α → Bool) (s0 : α) (U : List α)
    (s : SearchState α) (hInv : Inv nbrs enq s0 U s) (hq : s.queue = []) :
    ∀ v n, alookup s.dist v = some n → ∀ m, Reaches nbrs enq s0 v m → n ≤ m := by
  intro v n h m hm
  cases hm with
  | base =>
      have hs0f : s0 ∈ s.found := by
        rcases hInv.start0 with h1 | ⟨hF, hQ, hD⟩
        · exact h1
        · rw [hq] at hQ
          exact absurd hQ.symm (List.cons_ne_nil s0 [])
      obtain ⟨n1, hn1, hleast⟩ := hInv.fOpt s0 hs0f
      have hn : n = n1 := Option.some.inj (h.symm.trans hn1)
      rw [hn]
      exact hleast 0 Reaches.base
  | step h1 h2 h3 =>
      rename_i u m1 c
      have huF : u ∈ s.found := final_complete nbrs enq s0 U s hInv hq u m1 h1 h2
      obtain ⟨nu, hnu, hleastu⟩ := hInv.fOpt u huF
      obtain ⟨nv, mu, hnv, hmu, hle⟩ := hInv.relaxed u huF _ h3
      have hn : n = nv := Option.some.inj (h.symm.trans hnv)
      have hmunu : mu = nu := Option.some.inj (hmu.symm.trans hnu)
      rw [hn]
      calc nv ≤ mu + c := hle
        _ = nu + c := by rw [hmunu]
        _ ≤ m1 + c := Nat.add_le_add_right (hleastu m1 h1) c

/-- The final dictionary records exactly the minimal search-path cost of
every state the search can reach, and mentions no other state. -/
theorem final_char (nbrs : α → List (Nat × α)) (enq : α → Bool) (s0 : α) (U : List α)
    (s : SearchState α) (hInv : Inv nbrs enq s0 U s) (hq : s.queue = []) :
    ∀ v n, alookup s.dist v = some n ↔
      (Reaches nbrs enq s0 v n ∧ ∀ m, Reaches nbrs enq s0 v m → n ≤ m) := by
  intro v n
  constructor
  · intro h
    exact ⟨hInv.sound v n h, final_least nbrs enq s0 U s hInv hq v n h⟩
  · rintro ⟨hr, hleast⟩
    by_cases henq : enq v = true ∨ v = s0
    · have hvF : v ∈ s.found := final_complete nbrs enq s0 U s hInv hq v n hr henq
      obtain ⟨n1, hn1, hleast1⟩ := hInv.fOpt v hvF
      have h1 : n1 ≤ n := hleast1 n hr
      have h2 : n ≤ n1 := hleast n1 (hInv.sound v n1 hn1)
      rw [show n = n1 by omega]
      exact hn1
    · cases hr with
      | base => exact absurd (Or.inr rfl) henq
      | step h1 h2 h3 =>
          rename_i u m1 c
          have huF : u ∈ s.found := final_complete nbrs enq s0 U s hInv hq u m1 h1 h2
          obtain ⟨nv, mu, hnv, hmu, hle⟩ := hInv.relaxed u huF _ h3
          have h4 : nv ≤ m1 + c :=
            final_least nbrs enq s0 U s hInv hq v nv hnv (m1 + c)
              (Reaches.step h1 h2 h3)
          have h5 : m1 + c ≤ nv := hleast nv (hInv.sound v nv hnv)
          rw [show m1 + c = nv by omega]
          exact hnv

theorem final_dom (nbrs : α → List (Nat × α)) (enq : α → Bool) (s0 : α) (U : List α)
    (s : SearchState α) (hInv : Inv nbrs enq s0 U s) (hq : s.queue = []) (v : α) :
    (∃ n, alookup s.dist v = some n) ↔ ∃ m, Reaches nbrs enq s0 v m := by
  constructor
  · rintro ⟨n, hn⟩
    exact ⟨n, hInv.sound v n hn⟩
  · rintro ⟨m, hm⟩
    have hne : {k | Reaches nbrs enq s0 v k}.Nonempty := ⟨m, hm⟩
    refine ⟨sInf {k | Reaches nbrs enq s0 v k}, ?_⟩
    rw [final_char nbrs enq s0 U s hInv hq v _]
    exact ⟨Nat.sInf_mem hne, fun k hk => Nat.sInf_le hk⟩

end Engine

/-! ### Day18: `find_min_dist_to_exit` -/

namespace Day18

/-- `DIRECTIONS = [(1, 0), (0, 1), (-1, 0), (0, -1)]` of `Day18.py`. -/
def DIRECTIONS : List (ℤ × ℤ) := [(1, 0), (0, 1), (-1, 0), (0, -1)]

/-- `0 <= new_pos[0] <= bounds[0] and 0 <= new_pos[1] <= bounds[1]`. -/
def inB (bounds q : ℤ × ℤ) : Prop :=
  0 ≤ q.1 ∧ q.1 ≤ bounds.1 ∧ 0 ≤ q.2 ∧ q.2 ≤ bounds.2

instance (bounds q : ℤ × ℤ) : Decidable (inB bounds q) := by
  unfold inB
  infer_instance

/-- The neighbours the Day18 loop relaxes from `pos`: each orthogonal step
that stays in bounds and does not land on a fallen byte, at cost 1. -/
def d18nbrs (fallen : List (ℤ × ℤ)) (bounds : ℤ × ℤ) (p : ℤ × ℤ) :
    List (Nat × (ℤ × ℤ)) :=
  DIRECTIONS.filterMap fun d =>
    if inB bounds (p.1 + d.1, p.2 + d.2) ∧ (p.1 + d.1, p.2 + d.2) ∉ fallen
    then some (1, (p.1 + d.1, p.2 + d.2)) else none

/-- One orthogonal unit step. -/
def Adj (p q : ℤ × ℤ) : Prop := ∃ d ∈ DIRECTIONS, q = (p.1 + d.1, p.2 + d.2)

theorem mem_d18nbrs (fallen : List (ℤ × ℤ)) (bounds p : ℤ × ℤ) (c : Nat) (q : ℤ × ℤ) :
    (c, q) ∈ d18nbrs fallen bounds p ↔
      c = 1 ∧ Adj p q ∧ inB bounds q ∧ q ∉ fallen := by
  constructor
  · intro h
    rcases List.mem_filterMap.mp h with ⟨d, hd, hsome⟩
    by_cases hg : inB bounds (p.1 + d.1, p.2 + d.2) ∧ (p.1 + d.1, p.2 + d.2) ∉ fallen
    · rw [if_pos hg] at hsome
      have heq : (1, (p.1 + d.1, p.2 + d.2)) = ((c, q) : Nat × (ℤ × ℤ)) :=
        Option.some.inj hsome
      obtain ⟨hc, hq⟩ := Prod.mk.injEq .. ▸ heq
      refine ⟨hc.symm, ⟨d, hd, hq.symm⟩, ?_, ?_⟩
      · rw [← hq]; exact hg.1
      · rw [← hq]; exact hg.2
    · rw [if_neg hg] at hsome
      exact absurd hsome (Option.noConfusion)
  · rintro ⟨hc, ⟨d, hd, hq⟩, hinB, hnf⟩
    subst hc
    refine List.mem_filterMap.mpr ⟨d, hd, ?_⟩
    rw [← hq]
    rw [if_pos ⟨hinB, hnf⟩]

theorem d18_hself (fallen : List (ℤ × ℤ)) (bounds : ℤ × ℤ) :
    ∀ (u : ℤ × ℤ) (c : Nat), (c, u) ∉ d18nbrs fallen bounds u := by
  intro u c h
  rw [mem_d18nbrs] at h
  obtain ⟨_, ⟨d, hd, hq⟩, _, _⟩ := h
  have h1 : u.1 = u.1 + d.1 := congrArg Prod.fst hq
  have h2 : u.2 = u.2 + d.2 := congrArg Prod.snd hq
  fin_cases hd <;> simp at h1 h2 <;> omega

/-- All in-bounds positions; together with the start this bounds the set of
states the loop ever enqueues. -/
def boundsList (bounds : ℤ × ℤ) : List (ℤ × ℤ) :=
  ((List.range (bounds.1.toNat + 1)).product (List.range (bounds.2.toNat + 1))).map
    fun rc => ((rc.1 : ℤ), (rc.2 : ℤ))

theorem mem_boundsList (bounds q : ℤ × ℤ) (h : inB bounds q) : q ∈ boundsList bounds := by
  obtain ⟨h1, h2, h3, h4⟩ := h
  refine List.mem_map.mpr ⟨(q.1.toNat, q.2.toNat), ?_, ?_⟩
  · refine List.pair_mem_product.mpr ⟨?_, ?_⟩
    · refine List.mem_range.mpr ?_
      have := Int.toNat_le_toNat h2
      omega
    · refine List.mem_range.mpr ?_
      have := Int.toNat_le_toNat h4
      omega
  · have e1 : ((q.1.toNat : ℤ)) = q.1 := Int.toNat_of_nonneg h1
    have e2 : ((q.2.toNat : ℤ)) = q.2 := Int.toNat_of_nonneg h3
    dsimp
    rw [e1, e2]

theorem length_boundsList (bounds : ℤ × ℤ) :
    (boundsList bounds).length = (bounds.1.toNat + 1) * (bounds.2.toNat + 1) := by
  have h : (boundsList bounds).length =
      ((List.range (bounds.1.toNat + 1)) ×ˢ (List.range (bounds.2.toNat + 1))).length := by
    simp [boundsList]
    rfl
  rw [h, List.length_product, List.length_range, List.length_range]

theorem d18_hclosed (fallen : List (ℤ × ℤ)) (bounds startPos : ℤ × ℤ) :
    ∀ u ∈ startPos :: boundsList bounds, ∀ cv ∈ d18nbrs fallen bounds u,
      (fun (_ : ℤ × ℤ) => true) cv.2 = true → cv.2 ∈ startPos :: boundsList bounds := by
  intro u _ cv hcv _
  obtain ⟨c, q⟩ := cv
  rw [mem_d18nbrs] at hcv
  exact List.mem_cons_of_mem _ (mem_boundsList bounds q hcv.2.2.1)

/-- Fuel amply covering the number of loop iterations. -/
def d18fuel (bounds : ℤ × ℤ) : Nat := (bounds.1.toNat + 1) * (bounds.2.toNat + 1) + 1

/-- The search state after `k` iterations of the Day18 loop. -/
def d18run (numFallen : Nat) (bytesPos : List (ℤ × ℤ)) (bounds : ℤ × ℤ)
    (startPos : ℤ × ℤ) (k : Nat) : SearchState (ℤ × ℤ) :=
  (stepSearch (d18nbrs (bytesPos.take numFallen) bounds) (fun _ => true))^[k]
    (initState startPos)

/-- `find_min_dist_to_exit` of `Day18.py`: run the loop to exhaustion
(`fallen_bytes = set(bytes_pos[:num_fallen])`; `while queue: ...`), then
`return dist[bounds] if bounds in dist else None`. -/
def find_min_dist_to_exit (numFallen : Nat) (bytesPos : List (ℤ × ℤ)) (bounds : ℤ × ℤ)
    (startPos : ℤ × ℤ := (0, 0)) : Option Nat :=
  alookup (d18run numFallen bytesPos bounds startPos (d18fuel bounds)).dist bounds

theorem d18_inv (numFallen : Nat) (bytesPos : List (ℤ × ℤ)) (bounds startPos : ℤ × ℤ)
    (k : Nat) :
    Inv (d18nbrs (bytesPos.take numFallen) bounds) (fun _ => true) startPos
      (startPos :: boundsList bounds) (d18run numFallen bytesPos bounds startPos k) :=
  inv_iter _ _ _ _ (d18_hclosed _ bounds startPos) (fun u _ c h => d18_hself _ bounds u c h)
    (List.mem_cons_self _ _) k

theorem d18_drained (numFallen : Nat) (bytesPos : List (ℤ × ℤ)) (bounds startPos : ℤ × ℤ) :
    (d18run numFallen bytesPos bounds startPos (d18fuel bounds)).queue = [] := by
  refine (queue_drained _ _ _ _ (d18_hclosed _ bounds startPos) (fun u _ c h => d18_hself _ bounds u c h)
    (List.mem_cons_self _ _) (d18fuel bounds) ?_).1
  simp only [List.length_cons, length_boundsList, d18fuel]
  omega

/-- Claim-level path: a sequence of orthogonal unit steps from `(0, 0)`,
every visited position (the start included) inside the bounds and avoiding
the fallen bytes; the cost counts the steps. -/
inductive PathTo (fallen : List (ℤ × ℤ)) (bounds : ℤ × ℤ) : (ℤ × ℤ) → Nat → Prop where
  | base : inB bounds (0, 0) → (0, 0) ∉ fallen → PathTo fallen bounds (0, 0) 0
  | step : ∀ {p : ℤ × ℤ} {n : Nat} {q : ℤ × ℤ}, PathTo fallen bounds p n →
      Adj p q → inB bounds q → q ∉ fallen → PathTo fallen bounds q (n + 1)

theorem path_start_valid (fallen : List (ℤ × ℤ)) (bounds : ℤ × ℤ) (v : ℤ × ℤ) (m : Nat)
    (h : PathTo fallen bounds v m) : inB bounds (0, 0) ∧ (0, 0) ∉ fallen := by
  induction h with
  | base h1 h2 => exact ⟨h1, h2⟩
  | step _ _ _ _ ih => exact ih

theorem reaches_iff_path (fallen : List (ℤ × ℤ)) (bounds : ℤ × ℤ)
    (hstart : inB bounds (0, 0) ∧ (0, 0) ∉ fallen) (v : ℤ × ℤ) (n : Nat) :
    Reaches (d18nbrs fallen bounds) (fun _ => true) (0, 0) v n ↔
      PathTo fallen bounds v n := by
  constructor
  · intro h
    induction h with
    | base => exact PathTo.base hstart.1 hstart.2
    | step h1 h2 h3 ih =>
        rw [mem_d18nbrs] at h3
        obtain ⟨hc, hadj, hinB, hnf⟩ := h3
        rw [hc]
        exact PathTo.step ih hadj hinB hnf
  · intro h
    induction h with
    | base => exact Reaches.base
    | step h1 h2 h3 h4 ih =>
        exact Reaches.step ih (Or.inl rfl) ((mem_d18nbrs _ _ _ 1 _).mpr ⟨rfl, h2, h3, h4⟩)

end Day18

/-- Claim C1: for every list of byte positions, bounds pair and
`num_fallen`, `find_min_dist_to_exit` returns exactly the minimum number of
orthogonal unit steps of a path from `(0, 0)` to `bounds` that stays inside
the bounds and avoids the first `num_fallen` byte positions, whenever such
a path exists; in particular on the open 3x3 grid it returns `some 4` for
the corner-to-corner distance. -/
theorem claim_C1 :
    (∀ (numFallen : Nat) (bytesPos : List (ℤ × ℤ)) (bounds : ℤ × ℤ),
      (∃ m, Day18.PathTo (bytesPos.take numFallen) bounds bounds m) →
      ∃ n, Day18.find_min_dist_to_exit numFallen bytesPos bounds = some n ∧
        Day18.PathTo (bytesPos.take numFallen) bounds bounds n ∧
        ∀ m, Day18.PathTo (bytesPos.take numFallen) bounds bounds m → n ≤ m) ∧
    Day18.find_min_dist_to_exit 0 [] (2, 2) = some 4 := by
  constructor
  · intro numFallen bytesPos bounds hex
    obtain ⟨m, hm⟩ := hex
    have hstart := Day18.path_start_valid _ bounds bounds m hm
    have hInv := Day18.d18_inv numFallen bytesPos bounds (0, 0) (Day18.d18fuel bounds)
    have hdrained := Day18.d18_drained numFallen bytesPos bounds (0, 0)
    have hiff := Day18.reaches_iff_path (bytesPos.take numFallen) bounds hstart
    have hchar := final_char _ _ _ _ _ hInv hdrained
    have hdom := final_dom _ _ _ _ _ hInv hdrained bounds
    have hreach : ∃ k, Reaches (Day18.d18nbrs (bytesPos.take numFallen) bounds)
        (fun _ => true) (0, 0) bounds k := ⟨m, (hiff bounds m).mpr hm⟩
    obtain ⟨n, hn⟩ := hdom.mpr hreach
    obtain ⟨hr, hleast⟩ := (hchar bounds n).mp hn
    exact ⟨n, hn, (hiff bounds n).mp hr, fun k hk => hleast k ((hiff bounds k).mpr hk)⟩
  · decide

/-- Witness for claim C1 at a concrete input: the open 2x2 grid, where the
corner-to-corner distance is 2. -/
theorem claim_C1_witness :
    ∃ n, Day18.find_min_dist_to_exit 0 [] (1, 1) = some n ∧
      Day18.PathTo [] (1, 1) (1, 1) n ∧
      ∀ m, Day18.PathTo [] (1, 1) (1, 1) m → n ≤ m := by
  have h0 : Day18.PathTo [] (1, 1) (0, 0) 0 :=
    Day18.PathTo.base (by decide) (by decide)
  have h1 : Day18.PathTo [] (1, 1) (1, 0) 1 :=
    Day18.PathTo.step h0 ⟨(1, 0), by decide, by decide⟩ (by decide) (by decide)
  have h2 : Day18.PathTo [] (1, 1) (1, 1) 2 :=
    Day18.PathTo.step h1 ⟨(0, 1), by decide, by decide⟩ (by decide) (by decide)
  exact claim_C1.1 0 [] (1, 1) ⟨2, h2⟩

/-! ### Day16: `Day16_Part1` and `Day16_Part2`

A state is `(position, facing)`.  `get_input` replaces the `E` tile by
`'.'` and leaves the `S` tile as `'S'`, and the search starts facing East
(`(0, 1)`). -/

namespace Day16

/-- `TURN_CW` dict of `Day16.py`; the final branch returns the dict's last
value, and is only ever applied to the four unit directions. -/
def TURN_CW (d : ℤ × ℤ) : ℤ × ℤ :=
  if d = (0, 1) then (1, 0) else if d = (1, 0) then (0, -1)
  else if d = (0, -1) then (-1, 0) else (0, 1)

/-- `TURN_ACW` dict of `Day16.py`. -/
def TURN_ACW (d : ℤ × ℤ) : ℤ × ℤ :=
  if d = (0, 1) then (-1, 0) else if d = (-1, 0) then (0, -1)
  else if d = (0, -1) then (1, 0) else (0, 1)

/-- The four unit directions (the values the facing component can take). -/
def DIRS : List (ℤ × ℤ) := [(0, 1), (1, 0), (0, -1), (-1, 0)]

/-- `maze[r][c]`.  An out-of-range access returns `'#'`; Python would wrap
a negative index or raise `IndexError`, so the embedding coincides with the
code on the bordered rectangular mazes the theorems assume, where every
evaluated access is in range. -/
def cellAt (maze : List (List Char)) (p : ℤ × ℤ) : Char :=
  if 0 ≤ p.1 ∧ 0 ≤ p.2 then (maze.getD p.1.toNat []).getD p.2.toNat '#' else '#'

/-- The options relaxed from a state, in source order:
`[(1001, TURN_ACW[facing]), (1, facing), (1001, TURN_CW[facing])]`, kept
only when the stepped-onto tile is `'.'`. -/
def d16nbrs (maze : List (List Char)) (s : (ℤ × ℤ) × (ℤ × ℤ)) :
    List (Nat × ((ℤ × ℤ) × (ℤ × ℤ))) :=
  [(1001, TURN_ACW s.2), (1, s.2), (1001, TURN_CW s.2)].filterMap fun sd =>
    if cellAt maze (s.1.1 + sd.2.1, s.1.2 + sd.2.2) = '.'
    then some (sd.1, ((s.1.1 + sd.2.1, s.1.2 + sd.2.2), sd.2)) else none

/-- Maximal row length of the maze. -/
def maxW (maze : List (List Char)) : Nat :=
  maze.foldr (fun row acc => max row.length acc) 0

theorem row_le_maxW (maze : List (List Char)) :
    ∀ row ∈ maze, row.length ≤ maxW maze := by
  induction maze with
  | nil => simp
  | cons r rows ih =>
      intro row hrow
      rcases List.mem_cons.mp hrow with h | h
      · subst h
        simp only [maxW, List.foldr_cons]
        exact le_max_left _ _
      · calc row.length ≤ maxW rows := ih row h
          _ ≤ maxW (r :: rows) := by
            simp only [maxW, List.foldr_cons]
            exact le_max_right _ _

theorem cellAt_dot (maze : List (List Char)) (p : ℤ × ℤ) (h : cellAt maze p = '.') :
    0 ≤ p.1 ∧ 0 ≤ p.2 ∧ p.1.toNat < maze.length ∧ p.2.toNat < maxW maze := by
  rw [cellAt] at h
  by_cases h0 : 0 ≤ p.1 ∧ 0 ≤ p.2
  · rw [if_pos h0] at h
    by_cases h1 : p.1.toNat < maze.length
    · refine ⟨h0.1, h0.2, h1, ?_⟩
      by_cases h2 : p.2.toNat < (maze.getD p.1.toNat []).length
      · have hmem : maze.getD p.1.toNat [] ∈ maze := by
          rw [List.getD_eq_getElem?_getD, List.getElem?_eq_getElem h1]
          exact List.getElem_mem h1
        calc p.2.toNat < (maze.getD p.1.toNat []).length := h2
          _ ≤ maxW maze := row_le_maxW maze _ hmem
      · rw [List.getD_eq_default _ _ (le_of_not_lt h2)] at h
        exact absurd h (by decide)
    · rw [List.getD_eq_default _ _ (le_of_not_lt h1)] at h
      simp at h
  · rw [if_neg h0] at h
    exact absurd h (by decide)

theorem turnCW_mem_DIRS (d : ℤ × ℤ) : TURN_CW d ∈ DIRS := by
  rw [TURN_CW]
  by_cases h1 : d = (0, 1)
  · simp [h1, DIRS]
  · by_cases h2 : d = (1, 0)
    · simp [h1, h2, DIRS]
    · by_cases h3 : d = (0, -1)
      · simp [h1, h2, h3, DIRS]
      · simp [h1, h2, h3, DIRS]

theorem turnACW_mem_DIRS (d : ℤ × ℤ) : TURN_ACW d ∈ DIRS := by
  rw [TURN_ACW]
  by_cases h1 : d = (0, 1)
  · simp [h1, DIRS]
  · by_cases h2 : d = (-1, 0)
    · simp [h1, h2, DIRS]
    · by_cases h3 : d = (0, -1)
      · simp [h1, h2, h3, DIRS]
      · simp [h1, h2, h3, DIRS]

theorem mem_d16nbrs (maze : List (List Char)) (s : (ℤ × ℤ) × (ℤ × ℤ)) (c : Nat)
    (t : (ℤ × ℤ) × (ℤ × ℤ)) (h : (c, t) ∈ d16nbrs maze s) :
    t.1 = (s.1.1 + t.2.1, s.1.2 + t.2.2) ∧ cellAt maze t.1 = '.' ∧
      ((c = 1001 ∧ t.2 = TURN_ACW s.2) ∨ (c = 1 ∧ t.2 = s.2) ∨
        (c = 1001 ∧ t.2 = TURN_CW s.2)) := by
  rcases List.mem_filterMap.mp h with ⟨sd, hsd, hsome⟩
  by_cases hg : cellAt maze (s.1.1 + sd.2.1, s.1.2 + sd.2.2) = '.'
  · rw [if_pos hg] at hsome
    have heq := Option.some.inj hsome
    obtain ⟨hc, ht⟩ := Prod.mk.injEq .. ▸ heq
    have ht1 : t.1 = (s.1.1 + sd.2.1, s.1.2 + sd.2.2) := by rw [← ht]
    have ht2 : t.2 = sd.2 := by rw [← ht]
    refine ⟨by rw [ht1, ht2], by rw [ht1]; exact hg, ?_⟩
    rcases List.mem_cons.mp hsd with h1 | h1
    · left
      constructor
      · rw [← hc, h1]
      · rw [ht2, h1]
    · rcases List.mem_cons.mp h1 with h2 | h2
      · right; left
        constructor
        · rw [← hc, h2]
        · rw [ht2, h2]
      · rcases List.mem_cons.mp h2 with h3 | h3
        · right; right
          constructor
          · rw [← hc, h3]
          · rw [ht2, h3]
        · exact absurd h3 (List.not_mem_nil sd)
  · rw [if_neg hg] at hsome
    exact absurd hsome Option.noConfusion

/-- The universe of states: the start state plus every grid position paired
with a unit direction. -/
def d16Univ (maze : List (List Char)) (startPos : ℤ × ℤ) :
    List ((ℤ × ℤ) × (ℤ × ℤ)) :=
  (startPos, (0, 1)) ::
    ((((List.range maze.length).product (List.range (maxW maze))).map
      fun rc => ((rc.1 : ℤ), (rc.2 : ℤ))).product DIRS)

theorem d16_hclosed (maze : List (List Char)) (startPos : ℤ × ℤ) :
    ∀ u ∈ d16Univ maze startPos, ∀ cv ∈ d16nbrs maze u,
      (fun (_ : (ℤ × ℤ) × (ℤ × ℤ)) => true) cv.2 = true →
      cv.2 ∈ d16Univ maze startPos := by
  intro u hu cv hcv _
  obtain ⟨c, t⟩ := cv
  obtain ⟨ht1, hdot, hopt⟩ := mem_d16nbrs maze u c t hcv
  have hdir : t.2 ∈ DIRS := by
    rcases hopt with ⟨_, h⟩ | ⟨_, h⟩ | ⟨_, h⟩
    · rw [h]; exact turnACW_mem_DIRS u.2
    · rw [h]
      rcases List.mem_cons.mp hu with h1 | h1
      · have : u.2 = (0, 1) := congrArg Prod.snd h1
        rw [this]
        exact List.mem_cons_self _ _
      · rcases List.mem_product.mp h1 with ⟨_, h2⟩
        exact h2
    · rw [h]; exact turnCW_mem_DIRS u.2
  obtain ⟨hp1, hp2, hp3, hp4⟩ := cellAt_dot maze t.1 hdot
  refine List.mem_cons_of_mem _ (List.mem_product.mpr ⟨?_, hdir⟩)
  refine List.mem_map.mpr ⟨(t.1.1.toNat, t.1.2.toNat), ?_, ?_⟩
  · exact List.pair_mem_product.mpr ⟨List.mem_range.mpr hp3, List.mem_range.mpr hp4⟩
  · dsimp
    rw [Int.toNat_of_nonneg hp1, Int.toNat_of_nonneg hp2]

theorem d16_hself (maze : List (List Char)) (startPos : ℤ × ℤ) :
    ∀ u ∈ d16Univ maze startPos, ∀ (c : Nat), (c, u) ∉ d16nbrs maze u := by
  intro u hu c h
  obtain ⟨up, ud⟩ := u
  obtain ⟨ht1, _, hopt⟩ := mem_d16nbrs maze (up, ud) c (up, ud) h
  have hdir : ud ∈ DIRS := by
    rcases List.mem_cons.mp hu with h1 | h1
    · have h2 : ud = (0, 1) := congrArg Prod.snd h1
      rw [h2]; exact List.mem_cons_self _ _
    · exact (List.mem_product.mp h1).2
  have h1 : up.1 = up.1 + ud.1 := congrArg Prod.fst ht1
  have h2 : up.2 = up.2 + ud.2 := congrArg Prod.snd ht1
  fin_cases hdir <;> simp at h1 h2 <;> omega

theorem length_d16Univ (maze : List (List Char)) (startPos : ℤ × ℤ) :
    (d16Univ maze startPos).length = maze.length * maxW maze * 4 + 1 := by
  have h1 : ((((List.range maze.length).product (List.range (maxW maze))).map
      (fun rc => (((rc.1 : ℤ), (rc.2 : ℤ)) : ℤ × ℤ))).product DIRS).length =
      maze.length * maxW maze * 4 := by
    have h2 : ∀ (l1 : List (ℤ × ℤ)) (l2 : List (ℤ × ℤ)),
        (l1.product l2).length = l1.length * l2.length := by
      intro l1 l2
      exact List.length_product l1 l2
    rw [h2]
    have h3 : ∀ (l1 l2 : List Nat), (l1.product l2).length = l1.length * l2.length := by
      intro l1 l2
      exact List.length_product l1 l2
    simp only [List.length_map, h3, List.length_range]
    rfl
  simp only [d16Univ, List.length_cons, h1]

/-- Fuel amply covering the number of Day16 loop iterations. -/
def d16fuel (maze : List (List Char)) : Nat := maze.length * maxW maze * 4 + 1

/-- The Day16 search state after `k` iterations, from `(startPos, East)`. -/
def d16run (maze : List (List Char)) (startPos : ℤ × ℤ) (k : Nat) :
    SearchState ((ℤ × ℤ) × (ℤ × ℤ)) :=
  (stepSearch (d16nbrs maze) (fun _ => true))^[k] (initState (startPos, (0, 1)))

/-- `Day16_Part1` of `Day16.py` on a parsed maze: run the loop to
exhaustion, then `min(v for k, v in dist.items() if k[0] == end)`; the
`min` of an empty sequence raises `ValueError`, modelled as `none`. -/
def Day16_Part1 (maze : List (List Char)) (startPos endPos : ℤ × ℤ) : Option Nat :=
  match (d16run maze startPos (d16fuel maze)).dist.filterMap
      (fun kv => if kv.1.1 = endPos then some kv.2 else none) with
  | [] => none
  | v :: vs => some (vs.foldl min v)

theorem d16_inv (maze : List (List Char)) (startPos : ℤ × ℤ) (k : Nat) :
    Inv (d16nbrs maze) (fun _ => true) (startPos, (0, 1)) (d16Univ maze startPos)
      (d16run maze startPos k) :=
  inv_iter _ _ _ _ (d16_hclosed maze startPos) (d16_hself maze startPos)
    (List.mem_cons_self _ _) k

theorem d16_drained (maze : List (List Char)) (startPos : ℤ × ℤ) :
    (d16run maze startPos (d16fuel maze)).queue = [] := by
  refine (queue_drained _ _ _ _ (d16_hclosed maze startPos) (d16_hself maze startPos)
    (List.mem_cons_self _ _) (d16fuel maze) ?_).1
  rw [length_d16Univ, d16fuel]

end Day16

/-- Association lists with arbitrary values (the `paths` dict of
`Day16_Part2`). -/
def vlookup {α β : Type} [DecidableEq α] : List (α × β) → α → Option β
  | [], _ => none
  | (k, v) :: rest, x => if x = k then some v else vlookup rest x

def vset {α β : Type} [DecidableEq α] : List (α × β) → α → β → List (α × β)
  | [], k, v => [(k, v)]
  | (k1, v1) :: rest, k, v =>
      if k = k1 then (k, v) :: rest else (k1, v1) :: vset rest k v

namespace Day16

/-- The `Day16_Part2` loop state: `Day16_Part1` plus the `paths` dict
holding, per state, the list of position sequences of the minimal routes
discovered so far. -/
structure State2 where
  queue : List ((ℤ × ℤ) × (ℤ × ℤ))
  found : List ((ℤ × ℤ) × (ℤ × ℤ))
  dist : List (((ℤ × ℤ) × (ℤ × ℤ)) × Nat)
  paths : List (((ℤ × ℤ) × (ℤ × ℤ)) × List (List (ℤ × ℤ)))

/-- One neighbour of the Part2 relaxation: enqueue when unseen, then update
`dist` and `paths` (replace the path set on a strict improvement, extend it
on a tie, `paths[new] = [p + [new_pos] for p in paths[pos]]`). -/
def processNbr2 (found : List ((ℤ × ℤ) × (ℤ × ℤ))) (pos : (ℤ × ℤ) × (ℤ × ℤ))
    (acc : List ((ℤ × ℤ) × (ℤ × ℤ)) ×
      List (((ℤ × ℤ) × (ℤ × ℤ)) × Nat) ×
      List (((ℤ × ℤ) × (ℤ × ℤ)) × List (List (ℤ × ℤ))))
    (cv : Nat × ((ℤ × ℤ) × (ℤ × ℤ))) :
    List ((ℤ × ℤ) × (ℤ × ℤ)) ×
      List (((ℤ × ℤ) × (ℤ × ℤ)) × Nat) ×
      List (((ℤ × ℤ) × (ℤ × ℤ)) × List (List (ℤ × ℤ))) :=
  let qu := acc.1
  let di := acc.2.1
  let pa := acc.2.2
  let qu1 := if cv.2 ∉ found ∧ cv.2 ∉ qu then qu ++ [cv.2] else qu
  let dp := (alookup di pos).getD 0
  let np := ((vlookup pa pos).getD []).map (fun p => p ++ [cv.2.1])
  match alookup di cv.2 with
  | some dv =>
      if dp + cv.1 < dv then (qu1, aset di cv.2 (dp + cv.1), vset pa cv.2 np)
      else if dp + cv.1 = dv then
        (qu1, di, vset pa cv.2 (((vlookup pa cv.2).getD []) ++ np))
      else (qu1, di, pa)
  | none => (qu1, aset di cv.2 (dp + cv.1), vset pa cv.2 np)

/-- One iteration of the `Day16_Part2` loop. -/
def step2 (maze : List (List Char)) (s : State2) : State2 :=
  match s.queue with
  | [] => s
  | q :: qs =>
      let pos := selMin s.dist q qs
      let acc := (d16nbrs maze pos).foldl (processNbr2 s.found pos)
        ((q :: qs).erase pos, s.dist, s.paths)
      ⟨acc.1, s.found ++ [pos], acc.2.1, acc.2.2⟩

/-- `dist = {(pos, facing): 0}` and `paths = {(pos, facing): [[pos]]}`. -/
def init2 (startPos : ℤ × ℤ) : State2 :=
  ⟨[(startPos, (0, 1))], [], [((startPos, (0, 1)), 0)],
    [((startPos, (0, 1)), [[startPos]])]⟩

def d16run2 (maze : List (List Char)) (startPos : ℤ × ℤ) (k : Nat) : State2 :=
  (step2 maze)^[k] (init2 startPos)

/-- `Day16_Part2` of `Day16.py` on a parsed maze: run the loop, compute
`min_score` (a `ValueError` on an empty collection is modelled as `none`),
then count the distinct positions appearing in the tracked minimal paths of
the end-position states achieving `min_score`. -/
def Day16_Part2 (maze : List (List Char)) (startPos endPos : ℤ × ℤ) : Option Nat :=
  match h : (d16run2 maze startPos (d16fuel maze)).dist.filterMap
      (fun kv => if kv.1.1 = endPos then some kv.2 else none) with
  | [] => none
  | v :: vs =>
      some (((d16run2 maze startPos (d16fuel maze)).paths.filterMap (fun kv =>
        if kv.1.1 = endPos ∧
            alookup (d16run2 maze startPos (d16fuel maze)).dist kv.1 =
              some (vs.foldl min v)
        then some kv.2 else none)).flatten.flatten.dedup.length)

/-- The maze rules as the docstring (and the puzzle) state them: from the
start tile facing East, move forward one tile (never into a wall, cost 1)
or rotate 90 degrees clockwise or counterclockwise in place (cost 1000). -/
inductive R16 (maze : List (List Char)) (startPos : ℤ × ℤ) :
    ((ℤ × ℤ) × (ℤ × ℤ)) → Nat → Prop where
  | base : R16 maze startPos (startPos, (0, 1)) 0
  | fwd : ∀ {p d : ℤ × ℤ} {n : Nat}, R16 maze startPos (p, d) n →
      cellAt maze (p.1 + d.1, p.2 + d.2) ≠ '#' →
      R16 maze startPos ((p.1 + d.1, p.2 + d.2), d) (n + 1)
  | turnCW : ∀ {p d : ℤ × ℤ} {n : Nat}, R16 maze startPos (p, d) n →
      R16 maze startPos (p, TURN_CW d) (n + 1000)
  | turnACW : ∀ {p d : ℤ × ℤ} {n : Nat}, R16 maze startPos (p, d) n →
      R16 maze startPos (p, TURN_ACW d) (n + 1000)

/-- The parsed form of the maze
`#####` / `#E.S#` / `#####` (after `get_input` replaced `E` by `.`):
start `(1, 3)`, end `(1, 1)`.  Reaching the end requires an initial
about-turn, which the docstring rules price at 2000, but which the search
graph of the code cannot express: its only moves are straight steps and
90-degree turns fused with a forward step. -/
def cexMaze : List (List Char) :=
  [['#', '#', '#', '#', '#'],
   ['#', '.', '.', 'S', '#'],
   ['#', '#', '#', '#', '#']]

end Day16

namespace Day16

theorem part1_none_iff (maze : List (List Char)) (startPos endPos : ℤ × ℤ) :
    Day16_Part1 maze startPos endPos = none ↔
      (d16run maze startPos (d16fuel maze)).dist.filterMap
        (fun kv => if kv.1.1 = endPos then some kv.2 else none) = [] := by
  rw [Day16_Part1]
  rcases h : (d16run maze startPos (d16fuel maze)).dist.filterMap
      (fun kv => if kv.1.1 = endPos then some kv.2 else none) with _ | ⟨v, vs⟩
  · rw [h]
    simp
  · rw [h]
    simp

end Day16

/-- Claim C2: in every run of the Dijkstra-style loops of `Day16_Part1`
and `find_min_dist_to_exit`, once a state has been added to the found set
its `dist` entry never changes again (in particular never decreases); the
edge costs (1, 1001 and 1) are non-negative naturals. -/
theorem claim_C2 :
    (∀ (maze : List (List Char)) (startPos : ℤ × ℤ) (k j : Nat)
      (v : (ℤ × ℤ) × (ℤ × ℤ)), v ∈ (Day16.d16run maze startPos k).found →
      alookup (Day16.d16run maze startPos (k + j)).dist v =
        alookup (Day16.d16run maze startPos k).dist v) ∧
    (∀ (numFallen : Nat) (bytesPos : List (ℤ × ℤ)) (bounds startPos : ℤ × ℤ)
      (k j : Nat) (v : ℤ × ℤ),
      v ∈ (Day18.d18run numFallen bytesPos bounds startPos k).found →
      alookup (Day18.d18run numFallen bytesPos bounds startPos (k + j)).dist v =
        alookup (Day18.d18run numFallen bytesPos bounds startPos k).dist v) := by
  constructor
  · intro maze startPos k j v hv
    exact (iter_found_stable _ _ _ _ (Day16.d16_hclosed maze startPos)
      (Day16.d16_hself maze startPos) (List.mem_cons_self _ _) k j v hv).2
  · intro numFallen bytesPos bounds startPos k j v hv
    exact (iter_found_stable _ _ _ _ (Day18.d18_hclosed _ bounds startPos)
      (fun u _ c h => Day18.d18_hself _ bounds u c h) (List.mem_cons_self _ _) k j v hv).2

/-- Witness for claim C2 at a concrete input: the Day18 loop on the 1x1
space; the start state is finalized after one iteration and its distance is
unchanged by a further iteration. -/
theorem claim_C2_witness :
    alookup (Day18.d18run 0 [] (0, 0) (0, 0) (1 + 1)).dist (0, 0) =
      alookup (Day18.d18run 0 [] (0, 0) (0, 0) 1).dist (0, 0) :=
  claim_C2.2 0 [] (0, 0) (0, 0) 1 1 (0, 0) (by decide)

/-- Claim C3 (code bug): on the maze `#####` / `#E.S#` / `#####` the end
tile is reachable under the documented rules — turn around in place twice
(2 x 1000) and step forward twice (2 x 1), total score 2002 — but
`Day16_Part1` raises `ValueError` (modelled as `none`): its search moves
only straight ahead or by a 90-degree turn fused with a forward step, so
no state at the end position is ever discovered. -/
theorem claim_C3_divergence :
    Day16.Day16_Part1 Day16.cexMaze (1, 3) (1, 1) = none ∧
    Day16.R16 Day16.cexMaze (1, 3) ((1, 1), (0, -1)) 2002 := by
  constructor
  · decide
  · have h0 : Day16.R16 Day16.cexMaze (1, 3) ((1, 3), (0, 1)) 0 := Day16.R16.base
    have h1 : Day16.R16 Day16.cexMaze (1, 3) ((1, 3), (1, 0)) 1000 :=
      Day16.R16.turnCW h0
    have h2 : Day16.R16 Day16.cexMaze (1, 3) ((1, 3), (0, -1)) 2000 :=
      Day16.R16.turnCW h1
    have h3 : Day16.R16 Day16.cexMaze (1, 3) ((1, 2), (0, -1)) 2001 :=
      Day16.R16.fwd h2 (by decide)
    have h4 : Day16.R16 Day16.cexMaze (1, 3) ((1, 1), (0, -1)) 2002 :=
      Day16.R16.fwd h3 (by decide)
    exact h4

/-- Claim C4 (code bug): on the same maze as claim C3, the end tile is
reachable under the documented rules (best score 2002, its single optimal
route covering three positions), but `Day16_Part2` raises `ValueError`
(modelled as `none`) instead of returning a count: its search graph cannot
turn in place, so no state at the end position is ever discovered. -/
theorem claim_C4_divergence :
    Day16.Day16_Part2 Day16.cexMaze (1, 3) (1, 1) = none ∧
    (∃ (f : ℤ × ℤ) (n : Nat), Day16.R16 Day16.cexMaze (1, 3) ((1, 1), f) n) := by
  constructor
  · decide
  · have h0 : Day16.R16 Day16.cexMaze (1, 3) ((1, 3), (0, 1)) 0 := Day16.R16.base
    have h1 : Day16.R16 Day16.cexMaze (1, 3) ((1, 3), (1, 0)) 1000 :=
      Day16.R16.turnCW h0
    have h2 : Day16.R16 Day16.cexMaze (1, 3) ((1, 3), (0, -1)) 2000 :=
      Day16.R16.turnCW h1
    have h3 : Day16.R16 Day16.cexMaze (1, 3) ((1, 2), (0, -1)) 2001 :=
      Day16.R16.fwd h2 (by decide)
    have h4 : Day16.R16 Day16.cexMaze (1, 3) ((1, 1), (0, -1)) 2002 :=
      Day16.R16.fwd h3 (by decide)
    exact ⟨(0, -1), 2002, h4⟩

/-- Claim C10: on a bordered rectangular maze, whenever no state at the end
position is reachable from the start state in the search graph,
`Day16_Part1` fails with an exception — `min` over the empty collection of
recorded end-position distances raises `ValueError`, modelled as `none` —
rather than returning a value or an unreachable indicator. -/
theorem claim_C10 (maze : List (List Char)) (startPos endPos : ℤ × ℤ)
    (hrect : ∀ row ∈ maze, row.length = Day16.maxW maze)
    (hborder : (∀ c ∈ maze.headD [], c = '#') ∧ (∀ c ∈ maze.getLastD [], c = '#') ∧
      ∀ row ∈ maze, row.headD '#' = '#' ∧ row.getLastD '#' = '#')
    (hstart : Day16.cellAt maze startPos ≠ '#') :
    Day16.Day16_Part1 maze startPos endPos = none ↔
      ¬ ∃ (f : ℤ × ℤ) (n : Nat), Reaches (Day16.d16nbrs maze) (fun _ => true)
        (startPos, (0, 1)) (endPos, f) n := by
  have hInv := Day16.d16_inv maze startPos (Day16.d16fuel maze)
  have hdrained := Day16.d16_drained maze startPos
  rw [Day16.part1_none_iff]
  constructor
  · rintro hnil ⟨f, n, hr⟩
    obtain ⟨n1, hn1⟩ := (final_dom _ _ _ _ _ hInv hdrained (endPos, f)).mpr ⟨n, hr⟩
    have hmem := alookup_mem _ _ _ hn1
    have hnone := List.filterMap_eq_nil_iff.mp hnil _ hmem
    simp at hnone
  · intro hnr
    refine List.filterMap_eq_nil_iff.mpr ?_
    rintro ⟨⟨kp, kf⟩, kn⟩ hkv
    by_cases hkend : kp = endPos
    · exfalso
      subst hkend
      have hlk := mem_alookup _ _ _ hInv.keys hkv
      exact hnr ⟨kf, kn, hInv.sound _ kn hlk⟩
    · exact if_neg hkend

/-- Witness for claim C10 at a concrete input: a bordered maze whose end
tile `(1, 3)` is walled off from the start `(1, 1)`. -/
theorem claim_C10_witness :
    Day16.Day16_Part1
        [['#', '#', '#', '#', '#'],
         ['#', 'S', '#', '.', '#'],
         ['#', '#', '#', '#', '#']] (1, 1) (1, 3) = none ↔
      ¬ ∃ (f : ℤ × ℤ) (n : Nat), Reaches
        (Day16.d16nbrs
          [['#', '#', '#', '#', '#'],
           ['#', 'S', '#', '.', '#'],
           ['#', '#', '#', '#', '#']]) (fun _ => true)
        ((1, 1), (0, 1)) ((1, 3), f) n :=
  claim_C10
    [['#', '#', '#', '#', '#'],
     ['#', 'S', '#', '.', '#'],
     ['#', '#', '#', '#', '#']] (1, 1) (1, 3)
    (by decide) (by decide) (by decide)

/-! ### Day20: `shortest_dists`

The Day20 loop relaxes every in-bounds orthogonal neighbour, but only
non-wall (`!= '#'`) cells may enter the queue: walls acquire `min_dist`
entries without ever being processed. -/

namespace Day20

/-- `DIRECTIONS = [(1, 0), (0, 1), (-1, 0), (0, -1)]` of `Day20.py`. -/
def DIRECTIONS : List (ℤ × ℤ) := [(1, 0), (0, 1), (-1, 0), (0, -1)]

/-- `0 <= new_pos[0] < bounds[0] and 0 <= new_pos[1] < bounds[1]` with
`bounds = (len(maze), len(maze[0]))`. -/
def inB (maze : List (List Char)) (q : ℤ × ℤ) : Prop :=
  0 ≤ q.1 ∧ q.1 < (maze.length : ℤ) ∧ 0 ≤ q.2 ∧ q.2 < (((maze.headD []).length : Nat) : ℤ)

instance (maze : List (List Char)) (q : ℤ × ℤ) : Decidable (inB maze q) := by
  unfold inB
  infer_instance

/-- `maze[r][c]`; out-of-range access returns `'#'` (the loop only
evaluates it after the bounds check, where the rectangular hypothesis
keeps the access in range, so the embedding coincides with Python). -/
def cellAt (maze : List (List Char)) (p : ℤ × ℤ) : Char :=
  if 0 ≤ p.1 ∧ 0 ≤ p.2 then (maze.getD p.1.toNat []).getD p.2.toNat '#' else '#'

/-- The neighbours the Day20 loop relaxes from `pos`: every in-bounds
orthogonal step, at cost 1 (walls included). -/
def d20nbrs (maze : List (List Char)) (p : ℤ × ℤ) : List (Nat × (ℤ × ℤ)) :=
  DIRECTIONS.filterMap fun d =>
    if inB maze (p.1 + d.1, p.2 + d.2) then some (1, (p.1 + d.1, p.2 + d.2)) else none

/-- The Day20 queue guard: `maze[new_pos[0]][new_pos[1]] != '#'`. -/
def d20enq (maze : List (List Char)) (p : ℤ × ℤ) : Bool := decide (cellAt maze p ≠ '#')

/-- One orthogonal unit step. -/
def Adj (p q : ℤ × ℤ) : Prop := ∃ d ∈ DIRECTIONS, q = (p.1 + d.1, p.2 + d.2)

theorem mem_d20nbrs (maze : List (List Char)) (p : ℤ × ℤ) (c : Nat) (q : ℤ × ℤ) :
    (c, q) ∈ d20nbrs maze p ↔ c = 1 ∧ Adj p q ∧ inB maze q := by
  constructor
  · intro h
    rcases List.mem_filterMap.mp h with ⟨d, hd, hsome⟩
    by_cases hg : inB maze (p.1 + d.1, p.2 + d.2)
    · rw [if_pos hg] at hsome
      have heq : (1, (p.1 + d.1, p.2 + d.2)) = ((c, q) : Nat × (ℤ × ℤ)) :=
        Option.some.inj hsome
      obtain ⟨hc, hq⟩ := Prod.mk.injEq .. ▸ heq
      refine ⟨hc.symm, ⟨d, hd, hq.symm⟩, ?_⟩
      rw [← hq]; exact hg
    · rw [if_neg hg] at hsome
      exact absurd hsome Option.noConfusion
  · rintro ⟨hc, ⟨d, hd, hq⟩, hinB⟩
    subst hc
    refine List.mem_filterMap.mpr ⟨d, hd, ?_⟩
    rw [← hq, if_pos (hq ▸ hinB)]

theorem d20_hself (maze : List (List Char)) :
    ∀ (u : ℤ × ℤ) (c : Nat), (c, u) ∉ d20nbrs maze u := by
  intro u c h
  rw [mem_d20nbrs] at h
  obtain ⟨_, ⟨d, hd, hq⟩, _⟩ := h
  have h1 : u.1 = u.1 + d.1 := congrArg Prod.fst hq
  have h2 : u.2 = u.2 + d.2 := congrArg Prod.snd hq
  fin_cases hd <;> simp at h1 h2 <;> omega

/-- The start plus all in-bounds positions. -/
def d20Univ (maze : List (List Char)) (pos : ℤ × ℤ) : List (ℤ × ℤ) :=
  pos :: ((List.range maze.length).product (List.range (maze.headD []).length)).map
    (fun rc => ((rc.1 : ℤ), (rc.2 : ℤ)))

theorem d20_hclosed (maze : List (List Char)) (pos : ℤ × ℤ) :
    ∀ u ∈ d20Univ maze pos, ∀ cv ∈ d20nbrs maze u,
      d20enq maze cv.2 = true → cv.2 ∈ d20Univ maze pos := by
  intro u _ cv hcv _
  obtain ⟨c, q⟩ := cv
  rw [mem_d20nbrs] at hcv
  obtain ⟨h1, h2, h3, h4⟩ := hcv.2.2
  refine List.mem_cons_of_mem _ (List.mem_map.mpr ⟨(q.1.toNat, q.2.toNat), ?_, ?_⟩)
  · refine List.pair_mem_product.mpr ⟨List.mem_range.mpr ?_, List.mem_range.mpr ?_⟩
    · omega
    · omega
  · dsimp
    rw [Int.toNat_of_nonneg h1, Int.toNat_of_nonneg h3]

def d20fuel (maze : List (List Char)) : Nat :=
  maze.length * (maze.headD []).length + 1

def d20run (maze : List (List Char)) (pos : ℤ × ℤ) (k : Nat) : SearchState (ℤ × ℤ) :=
  (stepSearch (d20nbrs maze) (d20enq maze))^[k] (initState pos)

/-- `shortest_dists` of `Day20.py`: run the loop to exhaustion and return
the `min_dist` dict. -/
def shortest_dists (maze : List (List Char)) (pos : ℤ × ℤ) : List ((ℤ × ℤ) × Nat) :=
  (d20run maze pos (d20fuel maze)).dist

theorem d20_inv (maze : List (List Char)) (pos : ℤ × ℤ) (k : Nat) :
    Inv (d20nbrs maze) (d20enq maze) pos (d20Univ maze pos) (d20run maze pos k) :=
  inv_iter _ _ _ _ (d20_hclosed maze pos) (fun u _ c h => d20_hself maze u c h)
    (List.mem_cons_self _ _) k

theorem d20_drained (maze : List (List Char)) (pos : ℤ × ℤ) :
    (d20run maze pos (d20fuel maze)).queue = [] := by
  refine (queue_drained _ _ _ _ (d20_hclosed maze pos)
    (fun u _ c h => d20_hself maze u c h) (List.mem_cons_self _ _) (d20fuel maze) ?_).1
  have h : ((List.range maze.length).product
      (List.range (maze.headD []).length)).length =
      maze.length * (maze.headD []).length := by
    have := List.length_product (List.range maze.length)
      (List.range (maze.headD []).length)
    simpa using this
  simp only [d20Univ, List.length_cons, List.length_map, h, d20fuel]
  omega

/-- Claim-level track reachability: a walk of orthogonal unit steps from
the start over in-bounds non-wall cells. -/
inductive CReach (maze : List (List Char)) (start : ℤ × ℤ) : (ℤ × ℤ) → Nat → Prop where
  | base : CReach maze start start 0
  | step : ∀ {p q : ℤ × ℤ} {n : Nat}, CReach maze start p n → Adj p q →
      inB maze q → cellAt maze q ≠ '#' → CReach maze start q (n + 1)

theorem creach_track (maze : List (List Char)) (start v : ℤ × ℤ) (n : Nat)
    (h : CReach maze start v n) : cellAt maze v ≠ '#' ∨ v = start := by
  cases h with
  | base => right; rfl
  | step _ _ _ h4 => left; exact h4

theorem creach_to_reaches (maze : List (List Char)) (start : ℤ × ℤ)
    (hs2 : cellAt maze start ≠ '#') (v : ℤ × ℤ) (n : Nat)
    (h : CReach maze start v n) :
    Reaches (d20nbrs maze) (d20enq maze) start v n := by
  induction h with
  | base => exact Reaches.base
  | step h1 h2 h3 h4 ih =>
      rename_i p q m
      have hsrc : d20enq maze p = true ∨ p = start := by
        rcases creach_track maze start p m h1 with h5 | h5
        · left; exact decide_eq_true h5
        · right; exact h5
      exact Reaches.step ih hsrc ((mem_d20nbrs maze p 1 q).mpr ⟨rfl, h2, h3⟩)

theorem reaches_to_creach (maze : List (List Char)) (start : ℤ × ℤ)
    (hs2 : cellAt maze start ≠ '#') (v : ℤ × ℤ) (n : Nat)
    (h : Reaches (d20nbrs maze) (d20enq maze) start v n) (hv : cellAt maze v ≠ '#') :
    CReach maze start v n := by
  induction h with
  | base => exact CReach.base
  | step h1 h2 h3 ih =>
      rename_i u m c w
      rw [mem_d20nbrs] at h3
      obtain ⟨hc, hadj, hinB⟩ := h3
      have hcr : CReach maze start u m := by
        rcases h2 with h4 | h4
        · exact ih (of_decide_eq_true h4)
        · rw [h4] at ih
          rw [h4]
          exact ih hs2
      rw [hc]
      exact CReach.step hcr hadj hinB hv

end Day20

namespace Day20

/-- A search path ending on a wall is exactly a track walk to some
orthogonal neighbour of the wall followed by the single relaxation step
onto it. -/
theorem reaches_wall (maze : List (List Char)) (start : ℤ × ℤ)
    (hs2 : cellAt maze start ≠ '#') (w : ℤ × ℤ) (hw : cellAt maze w = '#') (n : Nat) :
    Reaches (d20nbrs maze) (d20enq maze) start w n ↔
      ∃ (u : ℤ × ℤ) (m : Nat), CReach maze start u m ∧ Adj u w ∧ inB maze w ∧
        n = m + 1 := by
  constructor
  · intro h
    cases h with
    | base => exact absurd hw hs2
    | step h1 h2 h3 =>
        rename_i u m c
        rw [mem_d20nbrs] at h3
        obtain ⟨hc, hadj, hinB⟩ := h3
        have hu : cellAt maze u ≠ '#' := by
          rcases h2 with h4 | h4
          · exact of_decide_eq_true h4
          · rw [h4]; exact hs2
        exact ⟨u, m, reaches_to_creach maze start hs2 u m h1 hu, hadj, hinB,
          by rw [hc]⟩
  · rintro ⟨u, m, hcr, hadj, hinB, hn⟩
    subst hn
    have hsrc : d20enq maze u = true ∨ u = start := by
      rcases creach_track maze start u m hcr with h4 | h4
      · left; exact decide_eq_true h4
      · right; exact h4
    exact Reaches.step (creach_to_reaches maze start hs2 u m hcr) hsrc
      ((mem_d20nbrs maze u 1 w).mpr ⟨rfl, hadj, hinB⟩)

end Day20

/-- Claim C9: in the map returned by `shortest_dists`, an in-bounds wall
cell appears as a key exactly when one of its orthogonal neighbours is a
track cell reachable from the start, and its recorded distance is then 1
plus the minimum recorded distance of those adjacent reachable track
cells. -/
theorem claim_C9 (maze : List (List Char)) (start : ℤ × ℤ)
    (hrect : ∀ row ∈ maze, row.length = (maze.headD []).length)
    (hs1 : Day20.inB maze start) (hs2 : Day20.cellAt maze start ≠ '#')
    (w : ℤ × ℤ) (hw1 : Day20.inB maze w) (hw2 : Day20.cellAt maze w = '#') :
    ((∃ n, alookup (Day20.shortest_dists maze start) w = some n) ↔
      ∃ u, Day20.Adj u w ∧ Day20.cellAt maze u ≠ '#' ∧
        ∃ m, Day20.CReach maze start u m) ∧
    (∀ n, alookup (Day20.shortest_dists maze start) w = some n →
      ∃ m, IsLeast {k | ∃ u, Day20.Adj u w ∧ Day20.cellAt maze u ≠ '#' ∧
        alookup (Day20.shortest_dists maze start) u = some k} m ∧ n = m + 1) := by
  have hInv := Day20.d20_inv maze start (Day20.d20fuel maze)
  have hdrained := Day20.d20_drained maze start
  have hdom := fun v => final_dom _ _ _ _ _ hInv hdrained v
  have hchar := fun v n => final_char _ _ _ _ _ hInv hdrained v n
  constructor
  · constructor
    · rintro ⟨n, hn⟩
      obtain ⟨m, hm⟩ := (hdom w).mp ⟨n, hn⟩
      obtain ⟨u, m1, hcr, hadj, hinB, _⟩ :=
        (Day20.reaches_wall maze start hs2 w hw2 m).mp hm
      rcases Day20.creach_track maze start u m1 hcr with h4 | h4
      · exact ⟨u, hadj, h4, m1, hcr⟩
      · exact ⟨u, hadj, by rw [h4]; exact hs2, m1, hcr⟩
    · rintro ⟨u, hadj, hu, m, hcr⟩
      refine (hdom w).mpr ⟨m + 1, ?_⟩
      exact (Day20.reaches_wall maze start hs2 w hw2 (m + 1)).mpr
        ⟨u, m, hcr, hadj, hw1, rfl⟩
  · intro n hn
    obtain ⟨hreach, hleast⟩ := (hchar w n).mp hn
    obtain ⟨u, m, hcr, hadj, hinB, hnm⟩ :=
      (Day20.reaches_wall maze start hs2 w hw2 n).mp hreach
    have hu : Day20.cellAt maze u ≠ '#' := by
      rcases Day20.creach_track maze start u m hcr with h4 | h4
      · exact h4
      · rw [h4]; exact hs2
    -- u has an entry, and its recorded value is exactly n - 1 = m
    obtain ⟨ku, hku⟩ := (hdom u).mpr
      ⟨m, Day20.creach_to_reaches maze start hs2 u m hcr⟩
    obtain ⟨hureach, huleast⟩ := (hchar u ku).mp hku
    have hkum : ku ≤ m :=
      huleast m (Day20.creach_to_reaches maze start hs2 u m hcr)
    have hwku : Reaches (Day20.d20nbrs maze) (Day20.d20enq maze) start w (ku + 1) :=
      (Day20.reaches_wall maze start hs2 w hw2 (ku + 1)).mpr
        ⟨u, ku, Day20.reaches_to_creach maze start hs2 u ku hureach hu, hadj, hw1, rfl⟩
    have hnku : n ≤ ku + 1 := hleast (ku + 1) hwku
    have hkeq : ku = m := by omega
    refine ⟨m, ⟨⟨u, hadj, hu, by rw [← hkeq]; exact hku⟩, ?_⟩, by omega⟩
    rintro k ⟨u1, hadj1, hu1, hk1⟩
    obtain ⟨h1reach, h1least⟩ := (hchar u1 k).mp hk1
    have hwk : Reaches (Day20.d20nbrs maze) (Day20.d20enq maze) start w (k + 1) :=
      (Day20.reaches_wall maze start hs2 w hw2 (k + 1)).mpr
        ⟨u1, k, Day20.reaches_to_creach maze start hs2 u1 k h1reach hu1, hadj1, hw1, rfl⟩
    have := hleast (k + 1) hwk
    omega

/-- Witness for claim C9 at a concrete input: the one-row maze `S.#`,
whose wall `(0, 2)` is recorded at distance 2 = 1 + the distance 1 of its
reachable track neighbour `(0, 1)`. -/
theorem claim_C9_witness :
    ((∃ n, alookup (Day20.shortest_dists [['S', '.', '#']] (0, 0)) (0, 2) = some n) ↔
      ∃ u, Day20.Adj u (0, 2) ∧ Day20.cellAt [['S', '.', '#']] u ≠ '#' ∧
        ∃ m, Day20.CReach [['S', '.', '#']] (0, 0) u m) ∧
    (∀ n, alookup (Day20.shortest_dists [['S', '.', '#']] (0, 0)) (0, 2) = some n →
      ∃ m, IsLeast {k | ∃ u, Day20.Adj u (0, 2) ∧
        Day20.cellAt [['S', '.', '#']] u ≠ '#' ∧
        alookup (Day20.shortest_dists [['S', '.', '#']] (0, 0)) u = some k} m ∧
        n = m + 1) :=
  claim_C9 [['S', '.', '#']] (0, 0) (by decide) (by decide) (by decide)
    (0, 2) (by decide) (by decide)

/-- Claim C5 counterexample: in the one-row maze `.#`, the wall `(0, 1)` is
unreachable from the start — no track walk ends on it — yet
`shortest_dists` records an entry for it, so the returned map does not omit
every state unreachable from the start. -/
theorem claim_C5_counterexample :
    alookup (Day20.shortest_dists [['.', '#']] (0, 0)) (0, 1) = some 1 ∧
    ¬ ∃ n, Day20.CReach [['.', '#']] (0, 0) (0, 1) n := by
  constructor
  · decide
  · rintro ⟨n, h⟩
    rcases Day20.creach_track [['.', '#']] (0, 0) (0, 1) n h with h1 | h1
    · exact h1 (by decide)
    · exact absurd h1 (by decide)

/-- Claim C5 amended: `shortest_dists` records every state reachable from
the start over track, and omits every unreachable track state — but wall
cells orthogonally adjacent to reachable track do additionally appear in
the map (they are relaxed without ever being enqueued); callers signal
unreachability by absence, not by an exception, and
`find_min_dist_to_exit` returns `None` exactly when the goal is
unreachable. -/
theorem claim_C5_amended :
    (∀ (maze : List (List Char)) (start : ℤ × ℤ),
      (∀ row ∈ maze, row.length = (maze.headD []).length) →
      Day20.inB maze start → Day20.cellAt maze start ≠ '#' →
      ∀ p : ℤ × ℤ,
        ((∃ n, Day20.CReach maze start p n) →
          ∃ k, alookup (Day20.shortest_dists maze start) p = some k) ∧
        (Day20.cellAt maze p ≠ '#' → ¬ (∃ n, Day20.CReach maze start p n) →
          alookup (Day20.shortest_dists maze start) p = none)) ∧
    (∀ (numFallen : Nat) (bytesPos : List (ℤ × ℤ)) (bounds : ℤ × ℤ),
      Day18.inB bounds (0, 0) → (0, 0) ∉ bytesPos.take numFallen →
      (Day18.find_min_dist_to_exit numFallen bytesPos bounds = none ↔
        ¬ ∃ m, Day18.PathTo (bytesPos.take numFallen) bounds bounds m)) := by
  constructor
  · intro maze start hrect hs1 hs2 p
    have hInv := Day20.d20_inv maze start (Day20.d20fuel maze)
    have hdrained := Day20.d20_drained maze start
    constructor
    · rintro ⟨n, hn⟩
      exact (final_dom _ _ _ _ _ hInv hdrained p).mpr
        ⟨n, Day20.creach_to_reaches maze start hs2 p n hn⟩
    · intro hp hnr
      rcases hlk : alookup (Day20.shortest_dists maze start) p with _ | k
      · rfl
      · exfalso
        obtain ⟨m, hm⟩ := (final_dom _ _ _ _ _ hInv hdrained p).mp ⟨k, hlk⟩
        exact hnr ⟨m, Day20.reaches_to_creach maze start hs2 p m hm hp⟩
  · intro numFallen bytesPos bounds h1 h2
    have hInv := Day18.d18_inv numFallen bytesPos bounds (0, 0) (Day18.d18fuel bounds)
    have hdrained := Day18.d18_drained numFallen bytesPos bounds (0, 0)
    have hiff := Day18.reaches_iff_path (bytesPos.take numFallen) bounds ⟨h1, h2⟩
    constructor
    · rintro hnone ⟨m, hm⟩
      obtain ⟨n, hn⟩ := (final_dom _ _ _ _ _ hInv hdrained bounds).mpr
        ⟨m, (hiff bounds m).mpr hm⟩
      rw [Day18.find_min_dist_to_exit] at hnone
      rw [hnone] at hn
      exact Option.noConfusion hn
    · intro hnr
      rcases hlk : Day18.find_min_dist_to_exit numFallen bytesPos bounds with _ | k
      · rfl
      · exfalso
        rw [Day18.find_min_dist_to_exit] at hlk
        obtain ⟨m, hm⟩ := (final_dom _ _ _ _ _ hInv hdrained bounds).mp ⟨k, hlk⟩
        exact hnr ⟨m, (hiff bounds m).mp hm⟩

/-- Witness for the amended claim C5 at a concrete input: with the single
byte `(0, 1)` fallen, the goal corner `(0, 1)` of the 1x2 space is
unreachable and `find_min_dist_to_exit` returns `none`. -/
theorem claim_C5_witness :
    Day18.find_min_dist_to_exit 1 [(0, 1)] (0, 1) = none ↔
      ¬ ∃ m, Day18.PathTo (([(0, 1)] : List (ℤ × ℤ)).take 1) (0, 1) (0, 1) m :=
  claim_C5_amended.2 1 [(0, 1)] (0, 1) (by decide) (by decide)

/-! ### Day19: `is_possible` and `num_ways`

Strings are embedded as `List Char`; the towel set (a Python `set` of
strings) as a duplicate-free list. -/

namespace Day19

/-- `is_possible` of `Day19.py`: if the design is itself a towel, succeed;
otherwise for every prefix length from 1 to `min(max_t_len, len(design))`,
if the prefix is a towel and the suffix is recursively possible, succeed. -/
def is_possible (design : List Char) (towels : List (List Char)) (maxT : Nat) : Bool :=
  if design ∈ towels then true
  else (List.range' 1 (min maxT design.length)).attach.any fun i =>
    decide (design.take i.1 ∈ towels) && is_possible (design.drop i.1) towels maxT
termination_by design.length
decreasing_by
  have h := List.mem_range'_1.mp i.2
  simp only [List.length_drop]
  omega

/-- `num_ways` of `Day19.py`: an atomic (`not_composite`) design counts 1;
otherwise count 1 if the whole design is a towel, and add, for every
prefix length from 1 to `min(max_t_len, len(design) - 1)` whose prefix is
a towel, the number of ways for the suffix. -/
def num_ways (design : List Char) (towels : List (List Char)) (maxT : Nat)
    (notComposite : List (List Char)) : Nat :=
  if design ∈ notComposite then 1
  else (if design ∈ towels then 1 else 0) +
    ((List.range' 1 (min maxT (design.length - 1))).attach.map fun i =>
      if design.take i.1 ∈ towels then
        num_ways (design.drop i.1) towels maxT notComposite
      else 0).sum
termination_by design.length
decreasing_by
  have h := List.mem_range'_1.mp i.2
  simp only [List.length_drop]
  omega

/-- `not_composite` as `Day19_Part2` precomputes it:
`tuple(t for t in towels if not is_possible(t, towels.difference({t}), max_t_len))`. -/
def not_composite (towels : List (List Char)) (maxT : Nat) : List (List Char) :=
  towels.filter fun t => !(is_possible t (towels.erase t) maxT)

/-- Specification-side enumerator: every decomposition of `design` into a
sequence of non-empty vocabulary tokens whose concatenation is `design`.
Its length is the number of distinct token sequences. -/
def decomps (design : List Char) (towels : List (List Char)) :
    List (List (List Char)) :=
  if h : design = [] then [[]]
  else ((List.range' 1 design.length).attach.map fun i =>
    if design.take i.1 ∈ towels then
      (decomps (design.drop i.1) towels).map fun l => design.take i.1 :: l
    else []).flatten
termination_by design.length
decreasing_by
  have h2 := List.mem_range'_1.mp i.2
  simp only [List.length_drop]
  have h3 : design.length ≠ 0 := fun h4 => h (List.length_eq_zero.mp h4)
  omega

theorem flatten_filter_nonempty (l : List (List Char)) :
    (l.filter fun t => !t.isEmpty).flatten = l.flatten := by
  induction l with
  | nil => rfl
  | cons t rest ih =>
      by_cases h : t.isEmpty
      · have ht : t = [] := by
          cases t with
          | nil => rfl
          | cons a as => simp [List.isEmpty] at h
        rw [ht]
        simp only [List.filter_cons]
        simp [ih]
      · simp only [List.filter_cons]
        simp [h, ih]

theorem flatten_ne_nil (l : List (List Char)) (hne : l ≠ [])
    (hts : ∀ t ∈ l, t ≠ []) : l.flatten ≠ [] := by
  cases l with
  | nil => exact absurd rfl hne
  | cons t rest =>
      have ht : t ≠ [] := hts t (List.mem_cons_self _ _)
      cases t with
      | nil => exact absurd rfl ht
      | cons a as => simp

end Day19

namespace Day19

/-- `is_possible` decides exactly decomposability into one or more
vocabulary tokens, provided `max_t_len` bounds every token's length. -/
theorem is_possible_iff (towels : List (List Char)) (maxT : Nat)
    (hlen : ∀ t ∈ towels, t.length ≤ maxT) :
    ∀ (N : Nat) (design : List Char), design.length ≤ N → design ≠ [] →
      (is_possible design towels maxT = true ↔
        ∃ l : List (List Char), l ≠ [] ∧ (∀ t ∈ l, t ∈ towels) ∧ l.flatten = design) := by
  intro N
  induction N with
  | zero =>
      intro design hd hne
      cases design with
      | nil => exact absurd rfl hne
      | cons a as => simp at hd
  | succ N ih =>
      intro design hd hne
      rw [is_possible]
      by_cases hmem : design ∈ towels
      · rw [if_pos hmem]
        constructor
        · intro _
          refine ⟨[design], List.cons_ne_nil _ _, ?_, by simp⟩
          intro t ht
          rcases List.mem_singleton.mp ht with h
          rw [h]; exact hmem
        · intro _; rfl
      · rw [if_neg hmem]
        constructor
        · intro hany
          rcases List.any_eq_true.mp hany with ⟨i, hiatt, hib⟩
          rcases (Bool.and_eq_true _ _).mp hib with ⟨htake, hrec⟩
          have htake2 : design.take i.1 ∈ towels := of_decide_eq_true htake
          have hi := List.mem_range'_1.mp i.2
          have hlt : i.1 < design.length := by
            rcases Nat.lt_or_ge i.1 design.length with h | h
            · exact h
            · exfalso
              rw [List.take_all_of_le h] at htake2
              exact hmem htake2
          have hdropne : design.drop i.1 ≠ [] := by
            intro h
            have h2 : (design.drop i.1).length = 0 := by rw [h]; rfl
            rw [List.length_drop] at h2
            omega
          have hdroplen : (design.drop i.1).length ≤ N := by
            simp only [List.length_drop]
            omega
          obtain ⟨l1, hl1ne, hl1mem, hl1flat⟩ := (ih _ hdroplen hdropne).mp hrec
          refine ⟨design.take i.1 :: l1, List.cons_ne_nil _ _, ?_, ?_⟩
          · intro t ht
            rcases List.mem_cons.mp ht with h | h
            · rw [h]; exact htake2
            · exact hl1mem t h
          · rw [List.flatten_cons, hl1flat, List.take_append_drop]
        · rintro ⟨l, hlne, hlmem, hlflat⟩
          have hl1flat : (l.filter fun t => !t.isEmpty).flatten = design := by
            rw [flatten_filter_nonempty, hlflat]
          have hl1mem : ∀ t ∈ l.filter fun t => !t.isEmpty, t ∈ towels :=
            fun t ht => hlmem t (List.mem_of_mem_filter ht)
          have hl1tne : ∀ t ∈ l.filter (fun t => !t.isEmpty), t ≠ [] := by
            intro t ht h
            have h2 := List.of_mem_filter ht
            rw [h] at h2
            simp at h2
          cases hl1c : l.filter fun t => !t.isEmpty with
          | nil =>
              rw [hl1c] at hl1flat
              exact absurd hl1flat.symm hne
          | cons t rest =>
              rw [hl1c] at hl1flat hl1mem hl1tne
              have htmem : t ∈ towels := hl1mem t (List.mem_cons_self _ _)
              have htne : t ≠ [] := hl1tne t (List.mem_cons_self _ _)
              have hdes : design = t ++ rest.flatten := by
                rw [← hl1flat]; rfl
              by_cases hrj : rest.flatten = []
              · rw [hrj, List.append_nil] at hdes
                rw [hdes] at hmem
                exact absurd htmem hmem
              · have hrestne : rest ≠ [] := by
                  intro h
                  rw [h] at hrj
                  exact hrj rfl
                have htakei : design.take t.length = t := by
                  rw [hdes]; exact List.take_left t rest.flatten
                have hdropi : design.drop t.length = rest.flatten := by
                  rw [hdes]; exact List.drop_left t rest.flatten
                have hipos : 1 ≤ t.length := List.length_pos.mpr htne
                have hilen : t.length ≤ maxT := hlen t htmem
                have hjlen : 0 < rest.flatten.length := List.length_pos.mpr hrj
                have hdlen : design.length = t.length + rest.flatten.length := by
                  rw [hdes, List.length_append]
                have himem : t.length ∈ List.range' 1 (min maxT design.length) := by
                  rw [List.mem_range'_1]
                  omega
                refine List.any_eq_true.mpr ⟨⟨t.length, himem⟩, List.mem_attach _ _, ?_⟩
                refine (Bool.and_eq_true _ _).mpr ⟨decide_eq_true ?_, ?_⟩
                · rw [htakei]; exact htmem
                · have hrecne : design.drop t.length ≠ [] := by
                    rw [hdropi]; exact hrj
                  have hreclen : (design.drop t.length).length ≤ N := by
                    simp only [List.length_drop]
                    omega
                  refine (ih _ hreclen hrecne).mpr ⟨rest, hrestne, ?_, ?_⟩
                  · intro u hu
                    exact hl1mem u (List.mem_cons_of_mem _ hu)
                  · rw [hdropi]

end Day19

namespace Day19

/-- The towel vocabulary of the puzzle's worked example. -/
def sampleTowels : List (List Char) :=
  [['r'], ['w', 'r'], ['b'], ['g'], ['b', 'w', 'u'], ['r', 'b'], ['g', 'b'], ['b', 'r']]

end Day19

unseal Day19.is_possible in
/-- Claim C6: for every non-empty design and vocabulary whose token lengths
are bounded by `max_t_len`, `is_possible` returns `True` exactly when the
design is a concatenation of one or more vocabulary tokens; on the sample
vocabulary, `brwrr` is decomposable and `ubwu` is not. -/
theorem claim_C6 :
    (∀ (design : List Char) (towels : List (List Char)) (maxT : Nat),
      design ≠ [] → (∀ t ∈ towels, t.length ≤ maxT) →
      (Day19.is_possible design towels maxT = true ↔
        ∃ l : List (List Char), l ≠ [] ∧ (∀ t ∈ l, t ∈ towels) ∧
          l.flatten = design)) ∧
    Day19.is_possible ['b', 'r', 'w', 'r', 'r'] Day19.sampleTowels 3 = true ∧
    Day19.is_possible ['u', 'b', 'w', 'u'] Day19.sampleTowels 3 = false := by
  refine ⟨?_, by decide, by decide⟩
  intro design towels maxT hne hlen
  exact Day19.is_possible_iff towels maxT hlen design.length design (le_refl _) hne

/-- Witness for claim C6 at a concrete input. -/
theorem claim_C6_witness :
    Day19.is_possible ['a', 'b'] [['a'], ['b']] 1 = true ↔
      ∃ l : List (List Char), l ≠ [] ∧ (∀ t ∈ l, t ∈ [['a'], ['b']]) ∧
        l.flatten = ['a', 'b'] :=
  claim_C6.1 ['a', 'b'] [['a'], ['b']] 1 (by decide) (by decide)

unseal Day19.is_possible in
/-- Claim C7 counterexample: the feasibility check applied to the empty
target does not return `True` for every vocabulary — with vocabulary
`{"a"}` it returns `False` (the empty design is not a member and no prefix
length is tried, since `range(1, min(max_t_len, 0) + 1)` is empty). -/
theorem claim_C7_counterexample :
    Day19.is_possible [] [['a']] 1 = false := by decide

/-- Claim C7 amended: on the empty target `is_possible` returns `True`
exactly when the empty string is itself a vocabulary token; in particular
it returns `False` for every vocabulary of non-empty tokens. -/
theorem claim_C7_amended (towels : List (List Char)) (maxT : Nat) :
    Day19.is_possible [] towels maxT = true ↔ ([] : List Char) ∈ towels := by
  rw [Day19.is_possible]
  by_cases h : ([] : List Char) ∈ towels
  · simp [h]
  · simp [h]

namespace Day19

theorem decomps_nil (towels : List (List Char)) : decomps [] towels = [[]] := by
  rw [decomps]
  simp

theorem mem_decomps_nil (towels : List (List Char)) (l : List (List Char)) :
    l ∈ decomps [] towels ↔
      ((∀ t ∈ l, t ∈ towels) ∧ (∀ t ∈ l, t ≠ []) ∧ l.flatten = []) := by
  rw [decomps_nil]
  constructor
  · intro h
    rcases List.mem_singleton.mp h with h1
    subst h1
    exact ⟨by simp, by simp, rfl⟩
  · rintro ⟨hmem, hne, hflat⟩
    cases l with
    | nil => exact List.mem_singleton.mpr rfl
    | cons t rest =>
        exfalso
        rw [List.flatten_cons] at hflat
        rcases List.append_eq_nil.mp hflat with ⟨ht, _⟩
        exact hne t (List.mem_cons_self _ _) ht

/-- `decomps` enumerates exactly the decompositions of `design` into
non-empty vocabulary tokens. -/
theorem mem_decomps (towels : List (List Char)) :
    ∀ (N : Nat) (design : List Char), design.length ≤ N → ∀ l : List (List Char),
      (l ∈ decomps design towels ↔
        ((∀ t ∈ l, t ∈ towels) ∧ (∀ t ∈ l, t ≠ []) ∧ l.flatten = design)) := by
  intro N
  induction N with
  | zero =>
      intro design hd l
      have hdes : design = [] := List.length_eq_zero.mp (Nat.le_zero.mp hd)
      subst hdes
      exact mem_decomps_nil towels l
  | succ N ih =>
      intro design hd l
      by_cases hdes : design = []
      · subst hdes
        exact mem_decomps_nil towels l
      · rw [decomps, dif_neg hdes]
        constructor
        · intro h
          rcases List.mem_flatten.mp h with ⟨comp, hcomp, hlc⟩
          rcases List.mem_map.mp hcomp with ⟨i, hiatt, hfi⟩
          by_cases htk : design.take i.1 ∈ towels
          · rw [if_pos htk] at hfi
            rw [← hfi] at hlc
            rcases List.mem_map.mp hlc with ⟨l1, hl1, hcons⟩
            have hi := List.mem_range'_1.mp i.2
            have hd0 : design.length ≠ 0 := fun h2 => hdes (List.length_eq_zero.mp h2)
            have hlen1 : (design.drop i.1).length ≤ N := by
              simp only [List.length_drop]
              omega
            obtain ⟨ha, hb, hc⟩ := (ih _ hlen1 l1).mp hl1
            subst hcons
            refine ⟨?_, ?_, ?_⟩
            · intro t ht
              rcases List.mem_cons.mp ht with h1 | h1
              · rw [h1]; exact htk
              · exact ha t h1
            · intro t ht
              rcases List.mem_cons.mp ht with h1 | h1
              · rw [h1]
                intro h2
                have h3 : (design.take i.1).length = 0 := by rw [h2]; rfl
                rw [List.length_take] at h3
                omega
              · exact hb t h1
            · rw [List.flatten_cons, hc, List.take_append_drop]
          · rw [if_neg htk] at hfi
            rw [← hfi] at hlc
            exact absurd hlc (List.not_mem_nil l)
        · rintro ⟨hmem, hne, hflat⟩
          cases l with
          | nil => exact absurd hflat.symm hdes
          | cons t rest =>
              have htmem : t ∈ towels := hmem t (List.mem_cons_self _ _)
              have htne : t ≠ [] := hne t (List.mem_cons_self _ _)
              rw [List.flatten_cons] at hflat
              have htake : design.take t.length = t := by
                rw [← hflat]; exact List.take_left t rest.flatten
              have hdrop : design.drop t.length = rest.flatten := by
                rw [← hflat]; exact List.drop_left t rest.flatten
              have hlen2 : design.length = t.length + rest.flatten.length := by
                rw [← hflat, List.length_append]
              have hipos : 1 ≤ t.length := List.length_pos.mpr htne
              have himem : t.length ∈ List.range' 1 design.length := by
                rw [List.mem_range'_1]
                omega
              refine List.mem_flatten.mpr
                ⟨(decomps (design.drop t.length) towels).map
                  (fun l1 => design.take t.length :: l1), ?_, ?_⟩
              · refine List.mem_map.mpr ⟨⟨t.length, himem⟩, List.mem_attach _ _, ?_⟩
                rw [if_pos (by rw [htake]; exact htmem)]
              · have hlen1 : (design.drop t.length).length ≤ N := by
                  simp only [List.length_drop]
                  omega
                refine List.mem_map.mpr ⟨rest, ?_, by rw [htake]⟩
                refine (ih _ hlen1 rest).mpr ⟨?_, ?_, hdrop.symm⟩
                · exact fun u hu => hmem u (List.mem_cons_of_mem _ hu)
                · exact fun u hu => hne u (List.mem_cons_of_mem _ hu)

/-- `decomps` lists each decomposition exactly once. -/
theorem decomps_nodup (towels : List (List Char)) :
    ∀ (N : Nat) (design : List Char), design.length ≤ N →
      (decomps design towels).Nodup := by
  intro N
  induction N with
  | zero =>
      intro design hd
      have hdes : design = [] := List.length_eq_zero.mp (Nat.le_zero.mp hd)
      subst hdes
      rw [decomps_nil]
      simp
  | succ N ih =>
      intro design hd
      by_cases hdes : design = []
      · subst hdes
        rw [decomps_nil]
        simp
      · rw [decomps, dif_neg hdes]
        rw [List.nodup_flatten]
        have hd0 : design.length ≠ 0 := fun h2 => hdes (List.length_eq_zero.mp h2)
        constructor
        · intro comp hcomp
          rcases List.mem_map.mp hcomp with ⟨i, _, hfi⟩
          subst hfi
          by_cases htk : design.take i.1 ∈ towels
          · rw [if_pos htk]
            have hi := List.mem_range'_1.mp i.2
            have hlen1 : (design.drop i.1).length ≤ N := by
              simp only [List.length_drop]
              omega
            refine (ih _ hlen1).map ?_
            intro a b hab
            exact (List.cons.injEq .. ▸ hab).2
          · rw [if_neg htk]
            exact List.nodup_nil
        · rw [List.pairwise_map]
          have hattach : (List.range' 1 design.length).attach.Pairwise
              (fun a b => a.1 ≠ b.1) := by
            have h1 : (List.range' 1 design.length).attach.Nodup :=
              List.nodup_attach.mpr (List.nodup_range' _ _)
            exact List.Pairwise.imp (fun hab h2 => hab (Subtype.ext h2)) h1
          refine hattach.imp ?_
          intro a b hab x hxa hxb
          by_cases hta : design.take a.1 ∈ towels
          · by_cases htb : design.take b.1 ∈ towels
            · rw [if_pos hta] at hxa
              rw [if_pos htb] at hxb
              rcases List.mem_map.mp hxa with ⟨la, _, hla⟩
              rcases List.mem_map.mp hxb with ⟨lb, _, hlb⟩
              have hheads : design.take a.1 = design.take b.1 :=
                (List.cons.injEq .. ▸ (hla.trans hlb.symm)).1
              have ha2 := List.mem_range'_1.mp a.2
              have hb2 := List.mem_range'_1.mp b.2
              have hlena : (design.take a.1).length = a.1 := by
                rw [List.length_take]
                omega
              have hlenb : (design.take b.1).length = b.1 := by
                rw [List.length_take]
                omega
              apply hab
              rw [← hlena, ← hlenb, hheads]
            · rw [if_neg htb] at hxb
              exact absurd hxb (List.not_mem_nil x)
          · rw [if_neg hta] at hxa
            exact absurd hxa (List.not_mem_nil x)

end Day19

namespace Day19

theorem token_lt_flatten (l : List (List Char)) (hne : ∀ w ∈ l, w ≠ [])
    (h2 : 2 ≤ l.length) : ∀ w ∈ l, w.length < l.flatten.length := by
  intro w hw
  obtain ⟨s, t, rfl⟩ := List.mem_iff_append.mp hw
  rw [List.flatten_append, List.flatten_cons, List.length_append, List.length_append]
  have hst : s ≠ [] ∨ t ≠ [] := by
    rcases s with _ | ⟨a, as⟩
    · right
      intro h
      rw [h] at h2
      simp at h2
    · left; exact List.cons_ne_nil _ _
  rcases hst with h | h
  · have h3 : s.flatten ≠ [] :=
      flatten_ne_nil s h (fun u hu => hne u (List.mem_append_left _ hu))
    have h4 := List.length_pos.mpr h3
    omega
  · have h3 : t.flatten ≠ [] :=
      flatten_ne_nil t h
        (fun u hu => hne u (List.mem_append_right _ (List.mem_cons_of_mem _ hu)))
    have h4 := List.length_pos.mpr h3
    omega

/-- An atomic (`not_composite`) towel has exactly one decomposition:
itself.  Any other decomposition would use at least two tokens, each
strictly shorter than the towel, exhibiting it as possible from the other
towels — contradicting atomicity. -/
theorem atomic_decomps (towels : List (List Char)) (maxT : Nat)
    (hlen : ∀ t ∈ towels, t.length ≤ maxT)
    (t : List Char) (ht : t ∈ not_composite towels maxT) (htne : t ≠ []) :
    decomps t towels = [[t]] := by
  have htmem : t ∈ towels := List.mem_of_mem_filter ht
  have hposs : is_possible t (towels.erase t) maxT = false := by
    have h1 := List.of_mem_filter ht
    simpa using h1
  have hmemt : [t] ∈ decomps t towels := by
    refine (mem_decomps towels t.length t (le_refl _) [t]).mpr ⟨?_, ?_, by simp⟩
    · intro u hu
      rcases List.mem_singleton.mp hu with h
      rw [h]; exact htmem
    · intro u hu
      rcases List.mem_singleton.mp hu with h
      rw [h]; exact htne
  have hall : ∀ l ∈ decomps t towels, l = [t] := by
    intro l hl
    obtain ⟨hmem, hne, hflat⟩ := (mem_decomps towels t.length t (le_refl _) l).mp hl
    rcases l with _ | ⟨u, rest⟩
    · exact absurd hflat.symm htne
    · by_cases hr : rest = []
      · subst hr
        rw [List.flatten_cons] at hflat
        simp only [List.flatten_nil, List.append_nil] at hflat
        rw [hflat]
      · exfalso
        have h2 : 2 ≤ (u :: rest).length := by
          rcases rest with _ | ⟨a, as⟩
          · exact absurd rfl hr
          · simp only [List.length_cons]
            omega
        have hlt := token_lt_flatten (u :: rest) hne h2
        rw [hflat] at hlt
        have hmem2 : ∀ w ∈ (u :: rest), w ∈ towels.erase t := by
          intro w hw
          refine (List.mem_erase_of_ne ?_).mpr (hmem w hw)
          intro hwt
          have h3 := hlt w hw
          rw [hwt] at h3
          omega
        have hlen2 : ∀ w ∈ towels.erase t, w.length ≤ maxT :=
          fun w hw => hlen w (List.mem_of_mem_erase hw)
        have h4 := (is_possible_iff (towels.erase t) maxT hlen2 t.length t
          (le_refl _) htne).mpr ⟨u :: rest, List.cons_ne_nil _ _, hmem2, hflat⟩
        rw [hposs] at h4
        exact Bool.noConfusion h4
  have hnodup := decomps_nodup towels t.length t (le_refl _)
  rcases hdc : decomps t towels with _ | ⟨x, xs⟩
  · rw [hdc] at hmemt
    exact absurd hmemt (List.not_mem_nil _)
  · rw [hdc] at hmemt hall hnodup
    have hx : x = [t] := hall x (List.mem_cons_self _ _)
    subst hx
    rcases xs with _ | ⟨y, ys⟩
    · rfl
    · exfalso
      have hy : y = [t] := hall y (List.mem_cons_of_mem _ (List.mem_cons_self _ _))
      rw [List.nodup_cons] at hnodup
      exact hnodup.1 (by rw [← hy]; exact List.mem_cons_self _ _)

/-- The optimized count of `num_ways` (with its atomic-token shortcut and
its `len(design) - 1` prefix bound) equals the number of decompositions
`decomps` enumerates. -/
theorem num_ways_eq (towels : List (List Char)) (maxT : Nat)
    (hnodup : towels.Nodup) (hlen : ∀ t ∈ towels, t.length ≤ maxT)
    (htne : ∀ t ∈ towels, t ≠ []) :
    ∀ (N : Nat) (design : List Char), design.length ≤ N → design ≠ [] →
      num_ways design towels maxT (not_composite towels maxT) =
        (decomps design towels).length := by
  intro N
  induction N with
  | zero =>
      intro design hd hne
      cases design with
      | nil => exact absurd rfl hne
      | cons a as => simp at hd
  | succ N ih =>
      intro design hd hne
      have hd0 : design.length ≠ 0 := fun h2 => hne (List.length_eq_zero.mp h2)
      by_cases hatom : design ∈ not_composite towels maxT
      · rw [num_ways, if_pos hatom,
          atomic_decomps towels maxT hlen design hatom hne]
        rfl
      · rw [num_ways, if_neg hatom, decomps, dif_neg hne, List.length_flatten,
          List.map_map]
        have hL : ((List.range' 1 (min maxT (design.length - 1))).attach.map fun i =>
            if design.take i.1 ∈ towels then
              num_ways (design.drop i.1) towels maxT (not_composite towels maxT)
            else 0) =
            (List.range' 1 (min maxT (design.length - 1))).map (fun j =>
            if design.take j ∈ towels then
              num_ways (design.drop j) towels maxT (not_composite towels maxT)
            else 0) :=
          List.attach_map_val (List.range' 1 (min maxT (design.length - 1)))
            (fun j =>
              if design.take j ∈ towels then
                num_ways (design.drop j) towels maxT (not_composite towels maxT)
              else 0)
        have hR1 : ((List.range' 1 design.length).attach.map
            (List.length ∘ fun i =>
              if design.take i.1 ∈ towels then
                (decomps (design.drop i.1) towels).map fun l => design.take i.1 :: l
              else [])) =
            (List.range' 1 design.length).map (fun j =>
              (if design.take j ∈ towels then
                (decomps (design.drop j) towels).map fun l => design.take j :: l
              else []).length) :=
          List.attach_map_val (List.range' 1 design.length)
            (fun j =>
              (if design.take j ∈ towels then
                (decomps (design.drop j) towels).map fun l => design.take j :: l
              else []).length)
        rw [hL, hR1]
        have hR2 : (List.range' 1 design.length).map (fun j =>
              (if design.take j ∈ towels then
                (decomps (design.drop j) towels).map fun l => design.take j :: l
              else []).length) =
            (List.range' 1 design.length).map (fun j =>
              if design.take j ∈ towels then (decomps (design.drop j) towels).length
              else 0) := by
          refine List.map_eq_map_iff.mpr ?_
          intro j _
          by_cases hj : design.take j ∈ towels
          · rw [if_pos hj, if_pos hj, List.length_map]
          · rw [if_neg hj, if_neg hj]
            rfl
        rw [hR2]
        have hEq1 : (List.range' 1 (min maxT (design.length - 1))).map (fun j =>
            if design.take j ∈ towels then
              num_ways (design.drop j) towels maxT (not_composite towels maxT)
            else 0) =
            (List.range' 1 (min maxT (design.length - 1))).map (fun j =>
            if design.take j ∈ towels then (decomps (design.drop j) towels).length
            else 0) := by
          refine List.map_eq_map_iff.mpr ?_
          intro j hj
          have hjb := List.mem_range'_1.mp hj
          by_cases hjt : design.take j ∈ towels
          · rw [if_pos hjt, if_pos hjt]
            have hdne : design.drop j ≠ [] := by
              intro h
              have h2 : (design.drop j).length = 0 := by rw [h]; rfl
              rw [List.length_drop] at h2
              omega
            have hdlen : (design.drop j).length ≤ N := by
              simp only [List.length_drop]
              omega
            exact ih _ hdlen hdne
          · rw [if_neg hjt, if_neg hjt]
        rw [hEq1]
        have h1 : design.length - 1 + 1 = design.length := by omega
        have hsplit := @List.range'_concat 1 1 (design.length - 1)
        rw [h1] at hsplit
        have h2 : 1 + 1 * (design.length - 1) = design.length := by omega
        rw [h2] at hsplit
        have happ := List.range'_append 1 (min maxT (design.length - 1))
          (design.length - 1 - min maxT (design.length - 1)) 1
        have h3 : design.length - 1 - min maxT (design.length - 1) +
            min maxT (design.length - 1) = design.length - 1 := by omega
        rw [h3, one_mul] at happ
        rw [hsplit, ← happ, List.map_append, List.map_append, List.sum_append,
          List.sum_append]
        have hmid : ((List.range' (1 + min maxT (design.length - 1))
            (design.length - 1 - min maxT (design.length - 1))).map (fun j =>
            if design.take j ∈ towels then (decomps (design.drop j) towels).length
            else 0)).sum = 0 := by
          refine List.sum_eq_zero ?_
          intro x hx
          rcases List.mem_map.mp hx with ⟨j, hj, hjx⟩
          have hjb := List.mem_range'_1.mp hj
          have hjt : design.take j ∉ towels := by
            intro hjt
            have h4 := hlen _ hjt
            rw [List.length_take] at h4
            omega
          rw [if_neg hjt] at hjx
          exact hjx.symm
        have hlast : ([design.length].map (fun j =>
            if design.take j ∈ towels then (decomps (design.drop j) towels).length
            else 0)).sum = if design ∈ towels then 1 else 0 := by
          simp only [List.map_cons, List.map_nil, List.sum_cons, List.sum_nil,
            List.take_length, List.drop_length, decomps_nil, Nat.add_zero]
          by_cases hdt : design ∈ towels
          · rw [if_pos hdt, if_pos hdt]
            rfl
          · rw [if_neg hdt, if_neg hdt]
        rw [hmid, hlast]
        omega

end Day19

/-- Claim C8: for every non-empty design and every duplicate-free
vocabulary of non-empty towel tokens, with maxT bounding every token
length, `num_ways design towels maxT (not_composite towels maxT)` equals
the number of distinct token sequences drawn from the vocabulary whose
concatenation is the design: the brute-force enumeration `decomps` lists
exactly those sequences (membership characterization), without duplicates,
and `num_ways` — atomic-token shortcut included — returns its length. -/
theorem claim_C8 (towels : List (List Char)) (maxT : Nat) (design : List Char)
    (hnodup : towels.Nodup) (hlen : ∀ t ∈ towels, t.length ≤ maxT)
    (htne : ∀ t ∈ towels, t ≠ []) (hne : design ≠ []) :
    Day19.num_ways design towels maxT (Day19.not_composite towels maxT) =
      (Day19.decomps design towels).length ∧
    (Day19.decomps design towels).Nodup ∧
    (∀ l, l ∈ Day19.decomps design towels ↔
      ((∀ t ∈ l, t ∈ towels) ∧ l.flatten = design)) := by
  refine ⟨Day19.num_ways_eq towels maxT hnodup hlen htne design.length design
    (le_refl _) hne,
    Day19.decomps_nodup towels design.length design (le_refl _), ?_⟩
  intro l
  constructor
  · intro hl
    obtain ⟨h1, _, h3⟩ :=
      (Day19.mem_decomps towels design.length design (le_refl _) l).mp hl
    exact ⟨h1, h3⟩
  · rintro ⟨h1, h3⟩
    exact (Day19.mem_decomps towels design.length design (le_refl _) l).mpr
      ⟨h1, fun t ht => htne t (h1 t ht), h3⟩

/-- Witness for C8: vocabulary {"a", "b", "ab"}, design "ab". -/
theorem claim_C8_witness :
    Day19.num_ways ['a','b'] [['a'],['b'],['a','b']] 2
        (Day19.not_composite [['a'],['b'],['a','b']] 2) =
      (Day19.decomps ['a','b'] [['a'],['b'],['a','b']]).length ∧
    (Day19.decomps ['a','b'] [['a'],['b'],['a','b']]).Nodup ∧
    (∀ l, l ∈ Day19.decomps ['a','b'] [['a'],['b'],['a','b']] ↔
      ((∀ t ∈ l, t ∈ [['a'],['b'],['a','b']]) ∧ l.flatten = ['a','b'])) :=
  claim_C8 [['a'],['b'],['a','b']] 2 ['a','b'] (by decide) (by decide)
    (by decide) (by decide)

end AoC
